import Mathlib

/-!
VecPack canonical serialization codec: shallow embedding and verification.

This file embeds the VecPack canonical serialization module of the Amadeus
TypeScript SDK (functions `encode`, `decode`, `encodeTerm`, `decodeTerm`,
`encodeVarint`, `decodeVarint`, `decodeVarintGteZero`, `compareBytes`) into
Lean and proves the specification's claims about it.

Conventions of the embedding:
* JavaScript numbers are modelled as rationals (`ℚ`): every finite float is a
  rational, and `BigInt(n)` succeeds exactly on integral values.
* JavaScript strings are modelled by their UTF-8 byte sequences, which is the
  only way the codec ever observes them.
* `Uint8Array` values are modelled as `List Nat`; the `new Uint8Array(..)`
  conversions at the `encode`/`decode` boundaries are modelled by mapping
  `· % 256` over the list, as JavaScript's ToUint8 does on each element.
* Reading `data[i]` out of bounds on a `Uint8Array` yields `undefined` in
  JavaScript; the embedding models this with `List.get?` and reproduces the
  behaviour of the source expression on `undefined` at each use site
  (`undefined === 0` is false, `undefined >> 7` is `0`, `undefined & 0x7f` is
  `0`, and `BigInt(undefined)` throws a `TypeError`).
* Thrown exceptions are modelled with `Except`; each distinct `throw` site of
  the source gets its own constructor of `Err`.
-/

namespace VecPack

/-- The distinct failure conditions of the codec.  The first ten correspond to
the string messages thrown by the source; `rangeErrorBigInt` is the JavaScript
`RangeError` thrown by `BigInt(x)` for a non-integral number `x`, and
`typeErrorBigInt` is the JavaScript `TypeError` thrown by `BigInt(undefined)`
when a varint magnitude read runs past the end of the buffer. -/
inductive Err where
  | trailingBytes
  | noncanonicalZero
  | lengthOverflow
  | lengthIsNegative
  | badVarintLength
  | varintLeadingZero
  | mapNotCanonical
  | outOfBounds
  | unknownType
  | unsupportedType
  | rangeErrorBigInt
  | typeErrorBigInt
  deriving DecidableEq, Repr

/-- The encodable value union (`SerializableValue`): the JavaScript runtime
types accepted by `encodeTerm`, plus `vundef` for `undefined` (the
representative unsupported type). `vnum` is a JavaScript number, `vbigint` a
bigint, `vstr` a string (as its UTF-8 bytes), `vbytes` a `Uint8Array`,
`vobj` a plain object (string keys in `Object.keys` order) and `vmap` a
`Map` (keys of any encodable type, in insertion order). -/
inductive SVal where
  | vnull
  | vbool (b : Bool)
  | vnum (q : ℚ)
  | vbigint (n : Int)
  | vstr (s : List Nat)
  | vbytes (b : List Nat)
  | vlist (xs : List SVal)
  | vobj (es : List (List Nat × SVal))
  | vmap (es : List (SVal × SVal))
  | vundef

/-- The decoded value union (`DecodedValue`): what `decodeTerm` produces.
Byte strings are always raw bytes, integers always bigints, and keyed
collections always `Map`s, modelled as their entry list in insertion
(= read) order. -/
inductive DVal where
  | dnull
  | dbool (b : Bool)
  | dint (n : Int)
  | dbytes (b : List Nat)
  | dlist (xs : List DVal)
  | dmap (es : List (DVal × DVal))

/-- Type tag for `null`. -/
def TYPE_NULL : Nat := 0x00
/-- Type tag for `true`. -/
def TYPE_TRUE : Nat := 0x01
/-- Type tag for `false`. -/
def TYPE_FALSE : Nat := 0x02
/-- Type tag for integers. -/
def TYPE_INT : Nat := 0x03
/-- Type tag for byte strings. -/
def TYPE_BYTES : Nat := 0x05
/-- Type tag for lists. -/
def TYPE_LIST : Nat := 0x06
/-- Type tag for maps. -/
def TYPE_MAP : Nat := 0x07

/-- `compareBytes` from the source: compare corresponding bytes left to right
(returning `a[i] - b[i]` at the first difference) and otherwise compare
lengths — "shorter wins if prefix equal". -/
def compareBytes : List Nat → List Nat → Int
  | [], [] => 0
  | [], _ :: bs => 0 - ((bs.length : Int) + 1)
  | _ :: as, [] => (as.length : Int) + 1
  | a :: as, b :: bs => if a = b then compareBytes as bs else (a : Int) - (b : Int)

/-- The big-endian magnitude builder of `encodeVarint`, modelled little-endian
first exactly as the source's `while (value > 0n) { magBytes.push(Number(value
& 0xffn)); value >>= 8n }` loop builds it (the source then reverses it). -/
def toMagBytesLE (m : Nat) : List Nat :=
  if h : m = 0 then [] else m % 256 :: toMagBytesLE (m / 256)
termination_by m
decreasing_by exact Nat.div_lt_self (Nat.pos_of_ne_zero h) (by decide)

/-- The JavaScript `BigInt(n)` conversion applied by `encodeVarint` to a
`number` argument: succeeds on integral values, throws `RangeError` on
non-integral ones. -/
def jsBigInt (q : ℚ) : Except Err Int :=
  if q.den = 1 then .ok q.num else .error .rangeErrorBigInt

/-- `encodeVarint` from the source: zero is the single byte `0x00`; otherwise
emit a header byte `((isNegative ? 1 : 0) << 7) | len` followed by the minimal
big-endian magnitude, rejecting lengths outside `1..16` and a leading zero
magnitude byte. -/
def encodeVarint (n : Int) : Except Err (List Nat) :=
  if n = 0 then .ok [0]
  else
    let magBytes := (toMagBytesLE n.natAbs).reverse
    let len := magBytes.length
    if len = 0 ∨ 16 < len then .error .badVarintLength
    else if magBytes.headD 0 = 0 then .error .varintLeadingZero
    else .ok (Nat.lor ((if n < 0 then 1 else 0) <<< 7) len :: magBytes)

/-- The magnitude-reading loop of `decodeVarint`: `length` iterations of
`mag = (mag << 8n) | BigInt(data[ref.offset++])`.  An out-of-bounds read
yields `undefined` and `BigInt(undefined)` throws a `TypeError`. -/
def readMag (data : List Nat) : Nat → Nat → Nat → Except Err (Nat × Nat)
  | off, 0, acc => .ok (acc, off)
  | off, count + 1, acc =>
    match data.get? off with
    | none => .error .typeErrorBigInt
    | some b => readMag data (off + 1) count (acc * 256 + b)

/-- `decodeVarint` from the source.  A header byte `0` is zero; header `0x80`
is the rejected negative zero; otherwise the top bit is the sign and the low
seven bits the magnitude length.  Magnitudes above `Number.MAX_SAFE_INTEGER =
2^53 - 1` are rejected.  When the header read itself is out of bounds the
source reads `undefined`, takes sign `0` and length `0`, and returns `0n`. -/
def decodeVarint (data : List Nat) (off : Nat) : Except Err (Int × Nat) :=
  match data.get? off with
  | none => .ok (0, off + 1)
  | some header =>
    if header = 0 then .ok (0, off + 1)
    else if header = 0x80 then .error .noncanonicalZero
    else
      match readMag data (off + 1) (header % 128) 0 with
      | .error e => .error e
      | .ok (mag, o) =>
        if 2 ^ 53 - 1 < mag then .error .lengthOverflow
        else .ok (if header / 128 = 1 then 0 - (mag : Int) else (mag : Int), o)

/-- `decodeVarintGteZero` from the source: a varint that must be non-negative
(used for lengths and counts). -/
def decodeVarintGteZero (data : List Nat) (off : Nat) : Except Err (Nat × Nat) :=
  match decodeVarint data off with
  | .error e => .error e
  | .ok (n, o) => if n < 0 then .error .lengthIsNegative else .ok (n.toNat, o)

/-- The comparator handed to `entries.sort((a, b) => compareBytes(a.bytes,
b.bytes))`, as the `le` relation of a stable sort (JavaScript's `sort` is
stable): `a` may stay before `b` iff the comparator is non-positive.  The
entries carry `(key bytes, value bytes)`. -/
def entryLE (a b : List Nat × List Nat) : Bool := compareBytes a.1 b.1 ≤ 0

/-- The map branch tail of `encodeTerm`: sort the collected entries by their
encoded key bytes, then emit the `TYPE_MAP` tag, the varint entry count and
each entry's key and value encodings. -/
def emitMap (entries : List (List Nat × List Nat)) : Except Err (List Nat) :=
  let sorted := entries.mergeSort entryLE
  match encodeVarint entries.length with
  | .error e => .error e
  | .ok cv => .ok (TYPE_MAP :: cv ++ (sorted.map fun e => e.1 ++ e.2).flatten)

mutual

/-- `encodeTerm` from the source: dispatch on the runtime type of the value
and emit a tag byte followed by the type-specific payload.  Strings are
UTF-8 encoded; lists are a count followed by the elements; objects and maps
collect `(key bytes, value bytes)` entries which `emitMap` sorts and emits.
Anything else (here: `undefined`) throws `Unsupported type`. -/
def encodeTerm : SVal → Except Err (List Nat)
  | .vnull => .ok [TYPE_NULL]
  | .vbool b => .ok [if b then TYPE_TRUE else TYPE_FALSE]
  | .vnum q =>
    match jsBigInt q with
    | .error e => .error e
    | .ok n =>
      match encodeVarint n with
      | .error e => .error e
      | .ok vb => .ok (TYPE_INT :: vb)
  | .vbigint n =>
    match encodeVarint n with
    | .error e => .error e
    | .ok vb => .ok (TYPE_INT :: vb)
  | .vstr s =>
    match encodeVarint (s.length : Int) with
    | .error e => .error e
    | .ok lv => .ok (TYPE_BYTES :: lv ++ s)
  | .vbytes bs =>
    match encodeVarint (bs.length : Int) with
    | .error e => .error e
    | .ok lv => .ok (TYPE_BYTES :: lv ++ bs)
  | .vlist xs =>
    match encodeVarint (xs.length : Int) with
    | .error e => .error e
    | .ok lv =>
      match encodeSeq xs with
      | .error e => .error e
      | .ok body => .ok (TYPE_LIST :: lv ++ body)
  | .vobj es =>
    match encodeObjEntries es with
    | .error e => .error e
    | .ok entries => emitMap entries
  | .vmap es =>
    match encodeMapEntriesE es with
    | .error e => .error e
    | .ok entries => emitMap entries
  | .vundef => .error .unsupportedType

/-- The element loop of the list branch of `encodeTerm`. -/
def encodeSeq : List SVal → Except Err (List Nat)
  | [] => .ok []
  | x :: xs =>
    match encodeTerm x with
    | .error e => .error e
    | .ok bs =>
      match encodeSeq xs with
      | .error e => .error e
      | .ok rest => .ok (bs ++ rest)

/-- The entry-collection loop of the object branch of `encodeTerm`: each
`Object.keys` key is a string, term-encoded by `encodeKeyBytes`. -/
def encodeObjEntries : List (List Nat × SVal) → Except Err (List (List Nat × List Nat))
  | [] => .ok []
  | (k, v) :: rest =>
    match encodeTerm (.vstr k) with
    | .error e => .error e
    | .ok kb =>
      match encodeTerm v with
      | .error e => .error e
      | .ok vb =>
        match encodeObjEntries rest with
        | .error e => .error e
        | .ok es => .ok ((kb, vb) :: es)

/-- The entry-collection loop of the `Map` branch of `encodeTerm`: keys are
arbitrary encodable values, term-encoded by `encodeKeyBytes`. -/
def encodeMapEntriesE : List (SVal × SVal) → Except Err (List (List Nat × List Nat))
  | [] => .ok []
  | (k, v) :: rest =>
    match encodeTerm k with
    | .error e => .error e
    | .ok kb =>
      match encodeTerm v with
      | .error e => .error e
      | .ok vb =>
        match encodeMapEntriesE rest with
        | .error e => .error e
        | .ok es => .ok ((kb, vb) :: es)

end

/-- Top-level `encode`: run `encodeTerm` and wrap the accumulated numbers in
`new Uint8Array(bytesOut)` (ToUint8 conversion of every element). -/
def encode (v : SVal) : Except Err (List Nat) :=
  match encodeTerm v with
  | .error e => .error e
  | .ok bs => .ok (bs.map (· % 256))

theorem readMag_ok_offset {data : List Nat} :
    ∀ {off count acc m o}, readMag data off count acc = .ok (m, o) → o = off + count := by
  intro off count
  induction count generalizing off with
  | zero => intro acc m o h; simp only [readMag] at h; cases h; rfl
  | succ c ih =>
    intro acc m o h
    simp only [readMag] at h
    cases hg : data.get? off with
    | none => rw [hg] at h; cases h
    | some b => rw [hg] at h; have := ih h; omega

theorem decodeVarint_lt {data : List Nat} {off : Nat} {n : Int} {o : Nat}
    (h : decodeVarint data off = .ok (n, o)) : off < o := by
  unfold decodeVarint at h
  cases hg : data.get? off with
  | none => rw [hg] at h; cases h; omega
  | some header =>
    rw [hg] at h
    by_cases h0 : header = 0
    · simp only [h0, if_true] at h; cases h; omega
    · simp only [h0, if_false] at h
      by_cases h80 : header = 0x80
      · simp [h80] at h
      · simp only [h80, if_false] at h
        cases hr : readMag data (off + 1) (header % 128) 0 with
        | error e => rw [hr] at h; cases h
        | ok p =>
          obtain ⟨mag, o'⟩ := p
          rw [hr] at h
          dsimp only at h
          have ho := readMag_ok_offset hr
          by_cases hov : (2 : Nat) ^ 53 - 1 < mag
          · rw [if_pos hov] at h; cases h
          · rw [if_neg hov] at h; cases h; omega

theorem decodeVarintGteZero_lt {data : List Nat} {off : Nat} {n o : Nat}
    (h : decodeVarintGteZero data off = .ok (n, o)) : off < o := by
  unfold decodeVarintGteZero at h
  cases hd : decodeVarint data off with
  | error e => rw [hd] at h; cases h
  | ok p =>
    obtain ⟨n', o'⟩ := p
    rw [hd] at h
    by_cases hneg : n' < 0
    · simp [hneg] at h
    · simp only [hneg, if_false] at h
      cases h
      exact decodeVarint_lt hd

/-- Introduction helper for the lexicographic termination measure of the
decoder. -/
theorem lexIntro {a b c d : Nat} (h : a < c ∨ (a = c ∧ b < d)) :
    Prod.Lex (· < ·) (· < ·) (a, b) (c, d) := by
  rcases h with h | ⟨rfl, h⟩
  · exact Prod.Lex.left _ _ h
  · exact Prod.Lex.right _ h

/-- The canonical-order guard of the map branch of `decodeTerm`: with a
previous key's raw bytes in hand, the current key's bytes must compare
strictly greater. -/
def violates (prev : Option (List Nat)) (keyBytes : List Nat) : Bool :=
  match prev with
  | some pb => compareBytes keyBytes pb ≤ 0
  | none => false

mutual

/-- `decodeTerm` from the source: check the cursor is in bounds, read the tag
byte and dispatch.  The returned offset is strictly larger than the input
offset (this is recorded in the subtype to justify termination). -/
def decodeTerm (data : List Nat) (off : Nat) : Except Err (DVal × { o : Nat // off < o }) :=
  if hoob : data.length ≤ off then .error .outOfBounds
  else
    let tag := data.getD off 0
    if tag = TYPE_NULL then .ok (.dnull, ⟨off + 1, by omega⟩)
    else if tag = TYPE_TRUE then .ok (.dbool true, ⟨off + 1, by omega⟩)
    else if tag = TYPE_FALSE then .ok (.dbool false, ⟨off + 1, by omega⟩)
    else if tag = TYPE_INT then
      match h : decodeVarint data (off + 1) with
      | .error e => .error e
      | .ok (n, o) => .ok (.dint n, ⟨o, by have := decodeVarint_lt h; omega⟩)
    else if tag = TYPE_BYTES then
      match h : decodeVarintGteZero data (off + 1) with
      | .error e => .error e
      | .ok (len, o) =>
        .ok (.dbytes ((data.drop o).take len),
          ⟨o + len, by have := decodeVarintGteZero_lt h; omega⟩)
    else if tag = TYPE_LIST then
      match h : decodeVarintGteZero data (off + 1) with
      | .error e => .error e
      | .ok (count, o) =>
        match decodeList data count o with
        | .error e => .error e
        | .ok (items, ⟨o2, h2⟩) =>
          .ok (.dlist items, ⟨o2, by have := decodeVarintGteZero_lt h; omega⟩)
    else if tag = TYPE_MAP then
      match h : decodeVarintGteZero data (off + 1) with
      | .error e => .error e
      | .ok (count, o) =>
        match decodeMapEntries data count o none with
        | .error e => .error e
        | .ok (entries, ⟨o2, h2⟩) =>
          .ok (.dmap entries, ⟨o2, by have := decodeVarintGteZero_lt h; omega⟩)
    else .error .unknownType
termination_by (data.length - off, 0)
decreasing_by
  · exact lexIntro (by have := decodeVarintGteZero_lt h; omega)
  · exact lexIntro (by have := decodeVarintGteZero_lt h; omega)

/-- The element loop of the list branch of `decodeTerm`: decode `count`
successive terms. -/
def decodeList (data : List Nat) (count off : Nat) :
    Except Err (List DVal × { o : Nat // off ≤ o }) :=
  match count with
  | 0 => .ok ([], ⟨off, Nat.le_refl off⟩)
  | c + 1 =>
    match decodeTerm data off with
    | .error e => .error e
    | .ok (item, ⟨o1, h1⟩) =>
      match decodeList data c o1 with
      | .error e => .error e
      | .ok (items, ⟨o2, h2⟩) => .ok (item :: items, ⟨o2, by omega⟩)
termination_by (data.length - off, count + 1)
decreasing_by
  · exact lexIntro (by omega)
  · exact lexIntro (by omega)

/-- The entry loop of the map branch of `decodeTerm`: decode `count` key/value
pairs, tracking the raw bytes consumed for each key and failing with
`map_not_canonical` whenever a key's bytes do not compare strictly greater
than the previous key's bytes. -/
def decodeMapEntries (data : List Nat) (count off : Nat) (prev : Option (List Nat)) :
    Except Err (List (DVal × DVal) × { o : Nat // off ≤ o }) :=
  match count with
  | 0 => .ok ([], ⟨off, Nat.le_refl off⟩)
  | c + 1 =>
    match decodeTerm data off with
    | .error e => .error e
    | .ok (key, ⟨o1, h1⟩) =>
      let keyBytes := (data.drop off).take (o1 - off)
      if violates prev keyBytes then .error .mapNotCanonical
      else
        match decodeTerm data o1 with
        | .error e => .error e
        | .ok (value, ⟨o2, h2⟩) =>
          match decodeMapEntries data c o2 (some keyBytes) with
          | .error e => .error e
          | .ok (entries, ⟨o3, h3⟩) => .ok ((key, value) :: entries, ⟨o3, by omega⟩)
termination_by (data.length - off, count + 1)
decreasing_by
  · exact lexIntro (by omega)
  · exact lexIntro (by omega)
  · exact lexIntro (by omega)

end

/-- `decodeTerm` with the termination bookkeeping erased. -/
def decodeTermAt (data : List Nat) (off : Nat) : Except Err (DVal × Nat) :=
  match decodeTerm data off with
  | .error e => .error e
  | .ok (v, o) => .ok (v, o.val)

/-- Top-level `decode`: convert the input to a `Uint8Array` (ToUint8 on every
element), decode one term from offset `0` and require the cursor to land
exactly at the end of the buffer. -/
def decode (bytes : List Nat) : Except Err DVal :=
  let data := bytes.map (· % 256)
  match decodeTermAt data 0 with
  | .error e => .error e
  | .ok (value, o) => if o ≠ data.length then .error .trailingBytes else .ok value

/-! ## The byte-wise comparator is a linear order -/

theorem compareBytes_eq_zero_iff : ∀ {a b : List Nat}, compareBytes a b = 0 ↔ a = b
  | [], [] => by simp [compareBytes]
  | [], _ :: bs => by simp [compareBytes] <;> omega
  | _ :: as, [] => by simp [compareBytes] <;> omega
  | a :: as, b :: bs => by
    by_cases hab : a = b
    · simpa [compareBytes, hab] using @compareBytes_eq_zero_iff as bs
    · simp [compareBytes, hab] <;> omega

theorem compareBytes_antisymm : ∀ (a b : List Nat), compareBytes b a = 0 - compareBytes a b
  | [], [] => by simp [compareBytes]
  | [], _ :: bs => by simp [compareBytes] <;> omega
  | _ :: as, [] => by simp [compareBytes] <;> omega
  | a :: as, b :: bs => by
    by_cases hab : a = b
    · simpa [compareBytes, hab] using compareBytes_antisymm as bs
    · simp [compareBytes, hab, Ne.symm hab] <;> omega

theorem compareBytes_le_trans :
    ∀ (a b c : List Nat), compareBytes a b ≤ 0 → compareBytes b c ≤ 0 → compareBytes a c ≤ 0
  | [], _, [] => by intro _ _; simp [compareBytes]
  | [], _, _ :: cs => by intro _ _; simp [compareBytes]; omega
  | _ :: as, [], _ => by simp [compareBytes]
  | _ :: as, _ :: bs, [] => by intro _; simp [compareBytes]
  | a :: as, b :: bs, c :: cs => by
    intro h1 h2
    simp only [compareBytes] at h1 h2 ⊢
    by_cases hab : a = b <;> by_cases hbc : b = c <;> by_cases hac : a = c <;>
      simp only [hab, hbc, hac, if_true, if_false, if_pos, if_neg] at * <;>
      first
      | exact compareBytes_le_trans as bs cs h1 h2
      | omega

theorem compareBytes_total (a b : List Nat) : compareBytes a b ≤ 0 ∨ compareBytes b a ≤ 0 := by
  have := compareBytes_antisymm a b
  omega

/-- At the first differing byte position, the sequence with the smaller byte
compares smaller. -/
theorem compareBytes_append_lt :
    ∀ (pre : List Nat) {x y : Nat} (s₁ s₂ : List Nat), x < y →
      compareBytes (pre ++ x :: s₁) (pre ++ y :: s₂) < 0
  | [], x, y, s₁, s₂, h => by simp [compareBytes]; omega
  | p :: pre, x, y, s₁, s₂, h => by
    simpa [compareBytes] using compareBytes_append_lt pre s₁ s₂ h

/-- A strict prefix compares smaller than the longer sequence. -/
theorem compareBytes_prefix_lt :
    ∀ (pre s : List Nat), s ≠ [] → compareBytes pre (pre ++ s) < 0
  | [], [], h => absurd rfl h
  | [], _ :: _, _ => by simp [compareBytes]; omega
  | p :: pre, s, h => by simpa [compareBytes] using compareBytes_prefix_lt pre s h

/-! ## Buffer access helpers -/

theorem get?_of_drop_cons {α : Type _} {l : List α} {n : Nat} {x : α} {t : List α}
    (h : l.drop n = x :: t) : l.get? n = some x := by
  have hlt : n < l.length := by
    by_contra hge
    rw [List.drop_eq_nil_of_le (by omega)] at h
    cases h
  rw [List.drop_eq_getElem_cons hlt] at h
  cases h
  simp [List.getElem?_eq_getElem hlt]

theorem drop_cons_succ {α : Type _} {l : List α} {n : Nat} {x : α} {t : List α}
    (h : l.drop n = x :: t) : l.drop (n + 1) = t := by
  have hd := List.drop_drop 1 n l
  rw [h] at hd
  simpa using hd.symm

theorem lt_length_of_drop_cons {α : Type _} {l : List α} {n : Nat} {x : α} {t : List α}
    (h : l.drop n = x :: t) : n < l.length := by
  by_contra hge
  rw [List.drop_eq_nil_of_le (by omega)] at h
  cases h

theorem length_of_drop_append {α : Type _} {l : List α} {n : Nat} {s : List α}
    (h : l.drop n = s) (hn : n ≤ l.length) : l.length = n + s.length := by
  have := List.length_drop n l
  rw [h] at this
  omega

/-! ## Varint layer -/

/-- Value of a big-endian base-256 digit string, as accumulated by the
magnitude-reading loop of `decodeVarint`. -/
def beVal (l : List Nat) : Nat := l.foldl (fun acc b => acc * 256 + b) 0

theorem beVal_foldl (l : List Nat) :
    ∀ acc, l.foldl (fun acc b => acc * 256 + b) acc = acc * 256 ^ l.length + beVal l := by
  induction l with
  | nil => intro acc; simp [beVal]
  | cons b t ih =>
    intro acc
    have hb : beVal (b :: t) = b * 256 ^ t.length + beVal t := by
      show List.foldl (fun acc b => acc * 256 + b) (0 * 256 + b) t = _
      rw [ih (0 * 256 + b)]
      ring_nf
    simp only [List.foldl_cons]
    rw [ih (acc * 256 + b), hb, List.length_cons]
    ring

theorem beVal_append_singleton (xs : List Nat) (d : Nat) :
    beVal (xs ++ [d]) = beVal xs * 256 + d := by
  simp [beVal, List.foldl_append]

theorem beVal_reverse_ofDigits (l : List Nat) : beVal l.reverse = Nat.ofDigits 256 l := by
  induction l with
  | nil => simp [beVal]
  | cons d t ih =>
    simp only [List.reverse_cons, beVal_append_singleton, ih, Nat.ofDigits_cons]
    push_cast
    ring

theorem toMagBytesLE_eq_digits (m : Nat) : toMagBytesLE m = Nat.digits 256 m := by
  induction m using Nat.strong_induction_on with
  | _ m ih =>
    rw [toMagBytesLE]
    by_cases h : m = 0
    · simp [h]
    · rw [dif_neg h, Nat.digits_def' (by norm_num : (1 : Nat) < 256) (Nat.pos_of_ne_zero h),
        ih (m / 256) (Nat.div_lt_self (Nat.pos_of_ne_zero h) (by norm_num))]

theorem digits256_len_le {m k : Nat} (h : m < 256 ^ k) : (Nat.digits 256 m).length ≤ k := by
  by_contra hgt
  by_cases h0 : m = 0
  · simp [h0] at hgt
  · have hle := Nat.base_pow_length_digits_le 256 m (by norm_num) h0
    have hpow : (256 : Nat) ^ (k + 1) ≤ 256 ^ (Nat.digits 256 m).length :=
      Nat.pow_le_pow_right (by norm_num) (by omega)
    have : (256 : Nat) ^ (k + 1) = 256 * 256 ^ k := by ring
    omega

theorem digits256_len_gt {m : Nat} (h : 256 ^ 16 ≤ m) : 16 < (Nat.digits 256 m).length := by
  have hlt : m < 256 ^ (Nat.digits 256 m).length := Nat.lt_base_pow_length_digits (by norm_num)
  by_contra hle
  have : (256 : Nat) ^ (Nat.digits 256 m).length ≤ 256 ^ 16 :=
    Nat.pow_le_pow_right (by norm_num) (by omega)
  omega

theorem lor_128 : ∀ len : Nat, len < 128 → Nat.lor 128 len = 128 + len := by decide

theorem encodeVarint_zero : encodeVarint 0 = .ok [0] := by simp [encodeVarint]

/-- Characterization of a successful nonzero `encodeVarint`. -/
theorem encodeVarint_ok {n : Int} (h0 : n ≠ 0) (hlt : n.natAbs < 256 ^ 16) :
    encodeVarint n =
      .ok (((if n < 0 then 128 else 0) + (Nat.digits 256 n.natAbs).length)
        :: (Nat.digits 256 n.natAbs).reverse) := by
  have hm0 : n.natAbs ≠ 0 := by omega
  have hnil : Nat.digits 256 n.natAbs ≠ [] := Nat.digits_ne_nil_iff_ne_zero.mpr hm0
  have hlen1 : 1 ≤ (Nat.digits 256 n.natAbs).length := by
    cases hd : Nat.digits 256 n.natAbs with
    | nil => exact absurd hd hnil
    | cons a t => simp
  have hlen16 : (Nat.digits 256 n.natAbs).length ≤ 16 := digits256_len_le hlt
  have hhead : ((Nat.digits 256 n.natAbs).reverse.headD 0) ≠ 0 := by
    have hrev : (Nat.digits 256 n.natAbs).reverse.head? = some ((Nat.digits 256 n.natAbs).getLast hnil) := by
      rw [List.head?_reverse, List.getLast?_eq_getLast _ hnil]
    rw [List.headD_eq_head?_getD, hrev]
    exact Nat.getLast_digit_ne_zero 256 hm0
  have hheader : Nat.lor ((if n < 0 then 1 else 0) <<< 7) (Nat.digits 256 n.natAbs).length
      = (if n < 0 then 128 else 0) + (Nat.digits 256 n.natAbs).length := by
    by_cases hneg : n < 0
    · rw [if_pos hneg, if_pos hneg]
      have h17 : (1 : Nat) <<< 7 = 128 := by decide
      rw [h17, lor_128 _ (by omega)]
    · rw [if_neg hneg, if_neg hneg]
      have h07 : (0 : Nat) <<< 7 = 0 := by decide
      rw [h07]
      show 0 ||| (Nat.digits 256 n.natAbs).length = _
      rw [Nat.zero_or, Nat.zero_add]
  rw [encodeVarint, if_neg h0, toMagBytesLE_eq_digits]
  simp only [List.length_reverse]
  rw [if_neg (by omega), if_neg hhead, hheader]

/-- A magnitude of 17 or more bytes fails at encode time. -/
theorem encodeVarint_too_long {n : Int} (h : 256 ^ 16 ≤ n.natAbs) :
    encodeVarint n = .error .badVarintLength := by
  have h0 : n ≠ 0 := by
    intro h0
    rw [h0] at h
    simp at h
  rw [encodeVarint, if_neg h0, toMagBytesLE_eq_digits]
  simp only [List.length_reverse]
  rw [if_pos (Or.inr (digits256_len_gt h))]

/-- The `varint_leading_zero` branch of `encodeVarint` is unreachable: the
magnitude loop always produces a nonzero most significant byte. -/
theorem encodeVarint_ne_leading_zero (n : Int) :
    encodeVarint n ≠ .error .varintLeadingZero := by
  by_cases h0 : n = 0
  · rw [h0, encodeVarint_zero]; intro h; cases h
  · by_cases hlt : n.natAbs < 256 ^ 16
    · rw [encodeVarint_ok h0 hlt]; intro h; cases h
    · rw [encodeVarint_too_long (by omega)]; intro h; cases h

theorem encodeVarint_bytes_lt {n : Int} {bs : List Nat} (h : encodeVarint n = .ok bs) :
    ∀ b ∈ bs, b < 256 := by
  by_cases h0 : n = 0
  · rw [h0, encodeVarint_zero] at h
    cases h
    intro b hb
    rcases List.mem_singleton.mp hb with rfl
    norm_num
  · by_cases hlt : n.natAbs < 256 ^ 16
    · rw [encodeVarint_ok h0 hlt] at h
      cases h
      intro b hb
      rcases List.mem_cons.mp hb with rfl | hmem
      · have hlen := digits256_len_le hlt
        by_cases hneg : n < 0 <;> simp only [hneg, if_true, if_false] <;> omega
      · have := Nat.digits_lt_base (by norm_num) (List.mem_reverse.mp hmem)
        omega
    · rw [encodeVarint_too_long (by omega)] at h
      cases h

theorem readMag_spec {data : List Nat} :
    ∀ (chunk : List Nat) (off acc : Nat) (rest : List Nat), data.drop off = chunk ++ rest →
      readMag data off chunk.length acc =
        .ok (chunk.foldl (fun a b => a * 256 + b) acc, off + chunk.length) := by
  intro chunk
  induction chunk with
  | nil => intro off acc rest h; simp [readMag]
  | cons b t ih =>
    intro off acc rest h
    have hg : data.get? off = some b := get?_of_drop_cons (by simpa using h)
    have hd : data.drop (off + 1) = t ++ rest := drop_cons_succ (by simpa using h)
    simp only [List.length_cons, readMag, hg]
    rw [ih (off + 1) (acc * 256 + b) rest hd]
    simp only [List.foldl_cons]
    have hoff : off + 1 + t.length = off + (t.length + 1) := by omega
    rw [hoff]

/-- `decodeVarint` inverts `encodeVarint` for every integer in the safe
range, consuming exactly the encoded bytes. -/
theorem decodeVarint_encode {n : Int} (hn : n.natAbs ≤ 2 ^ 53 - 1) {bs : List Nat}
    (he : encodeVarint n = .ok bs) {data : List Nat} {off : Nat} {rest : List Nat}
    (hd : data.drop off = bs ++ rest) :
    decodeVarint data off = .ok (n, off + bs.length) := by
  by_cases h0 : n = 0
  · subst h0
    rw [encodeVarint_zero] at he
    cases he
    have hg : data.get? off = some 0 := get?_of_drop_cons (by simpa using hd)
    rw [decodeVarint, hg]
    dsimp only
    rw [if_pos rfl]
    simp
  · have hlt : n.natAbs < 256 ^ 16 := by
      have hp : (2 : Nat) ^ 53 - 1 < 256 ^ 16 := by norm_num
      omega
    rw [encodeVarint_ok h0 hlt] at he
    cases he
    have hlen1 : 1 ≤ (Nat.digits 256 n.natAbs).length := by
      have hnil : Nat.digits 256 n.natAbs ≠ [] :=
        Nat.digits_ne_nil_iff_ne_zero.mpr (by omega)
      cases hdg : Nat.digits 256 n.natAbs with
      | nil => exact absurd hdg hnil
      | cons a t => simp
    have hlen16 : (Nat.digits 256 n.natAbs).length ≤ 16 := digits256_len_le hlt
    have hg : data.get? off =
        some ((if n < 0 then 128 else 0) + (Nat.digits 256 n.natAbs).length) :=
      get?_of_drop_cons (by simpa using hd)
    have hd1 : data.drop (off + 1) = (Nat.digits 256 n.natAbs).reverse ++ rest :=
      drop_cons_succ (by simpa using hd)
    have hrm := readMag_spec (Nat.digits 256 n.natAbs).reverse (off + 1) 0 rest hd1
    have hbe : (Nat.digits 256 n.natAbs).reverse.foldl (fun a b => a * 256 + b) 0
        = n.natAbs := by
      show beVal (Nat.digits 256 n.natAbs).reverse = n.natAbs
      rw [beVal_reverse_ofDigits, Nat.ofDigits_digits]
    rw [List.length_reverse, hbe] at hrm
    rw [decodeVarint, hg]
    dsimp only
    simp only [List.length_cons, List.length_reverse]
    by_cases hneg : n < 0
    · simp only [hneg, if_true]
      rw [if_neg (by omega), if_neg (by omega),
        (by omega : (128 + (Nat.digits 256 n.natAbs).length) % 128
          = (Nat.digits 256 n.natAbs).length), hrm]
      dsimp only
      rw [if_neg (by omega),
        if_pos (by omega : (128 + (Nat.digits 256 n.natAbs).length) / 128 = 1),
        (by omega : 0 - ((n.natAbs : Int)) = n),
        (by omega : off + 1 + (Nat.digits 256 n.natAbs).length
          = off + ((Nat.digits 256 n.natAbs).length + 1))]
    · simp only [hneg, if_false]
      rw [if_neg (by omega), if_neg (by omega),
        (by omega : (0 + (Nat.digits 256 n.natAbs).length) % 128
          = (Nat.digits 256 n.natAbs).length), hrm]
      dsimp only
      rw [if_neg (by omega),
        if_neg (by omega : ¬ (0 + (Nat.digits 256 n.natAbs).length) / 128 = 1),
        (by omega : ((n.natAbs : Int)) = n),
        (by omega : off + 1 + (Nat.digits 256 n.natAbs).length
          = off + ((Nat.digits 256 n.natAbs).length + 1))]

theorem decodeVarintGteZero_encode {m : Nat} (hm : m ≤ 2 ^ 53 - 1) {bs : List Nat}
    (he : encodeVarint (m : Int) = .ok bs) {data : List Nat} {off : Nat} {rest : List Nat}
    (hd : data.drop off = bs ++ rest) :
    decodeVarintGteZero data off = .ok (m, off + bs.length) := by
  have hdec : decodeVarint data off = .ok ((m : Int), off + bs.length) :=
    decodeVarint_encode (by simpa using hm) he hd
  rw [decodeVarintGteZero, hdec]
  dsimp only
  rw [if_neg (by omega)]
  simp

/-! ## Unfolding equations for the decoder, at the wrapper level -/

theorem getD_of_drop_cons {l : List Nat} {n x : Nat} {t : List Nat}
    (h : l.drop n = x :: t) : l.getD n 0 = x := by
  have hg := get?_of_drop_cons h
  rw [List.getD_eq_getElem?_getD, ← List.get?_eq_getElem?, hg]
  rfl

/-- `decodeList` with the termination bookkeeping erased. -/
def decodeListAt (data : List Nat) (count off : Nat) : Except Err (List DVal × Nat) :=
  match decodeList data count off with
  | .error e => .error e
  | .ok (items, o) => .ok (items, o.val)

/-- `decodeMapEntries` with the termination bookkeeping erased. -/
def decodeMapEntriesAt (data : List Nat) (count off : Nat) (prev : Option (List Nat)) :
    Except Err (List (DVal × DVal) × Nat) :=
  match decodeMapEntries data count off prev with
  | .error e => .error e
  | .ok (entries, o) => .ok (entries, o.val)

theorem decodeTermAt_oob {data : List Nat} {off : Nat} (h : data.length ≤ off) :
    decodeTermAt data off = .error .outOfBounds := by
  rw [decodeTermAt, decodeTerm]
  rw [dif_pos h]

theorem decodeTermAt_null {data : List Nat} {off : Nat} (h : off < data.length)
    (ht : data.getD off 0 = TYPE_NULL) :
    decodeTermAt data off = .ok (.dnull, off + 1) := by
  rw [decodeTermAt, decodeTerm, dif_neg (by omega)]
  rw [if_pos ht]

theorem decodeTermAt_true {data : List Nat} {off : Nat} (h : off < data.length)
    (ht : data.getD off 0 = TYPE_TRUE) :
    decodeTermAt data off = .ok (.dbool true, off + 1) := by
  rw [decodeTermAt, decodeTerm, dif_neg (by omega)]
  rw [if_neg (by rw [ht]; decide), if_pos ht]

theorem decodeTermAt_false {data : List Nat} {off : Nat} (h : off < data.length)
    (ht : data.getD off 0 = TYPE_FALSE) :
    decodeTermAt data off = .ok (.dbool false, off + 1) := by
  rw [decodeTermAt, decodeTerm, dif_neg (by omega)]
  rw [if_neg (by rw [ht]; decide), if_neg (by rw [ht]; decide), if_pos ht]

theorem decodeTermAt_int {data : List Nat} {off : Nat} (h : off < data.length)
    (ht : data.getD off 0 = TYPE_INT) :
    decodeTermAt data off =
      match decodeVarint data (off + 1) with
      | .error e => .error e
      | .ok (n, o) => .ok (.dint n, o) := by
  rw [decodeTermAt, decodeTerm, dif_neg (by omega)]
  rw [if_neg (by rw [ht]; decide), if_neg (by rw [ht]; decide), if_neg (by rw [ht]; decide),
    if_pos ht]
  split
  · rename_i e heq
    split at heq <;> rename_i hdv
    · rw [hdv]
      cases heq
      rfl
    · cases heq
  · rename_i p v o heq
    split at heq <;> rename_i hdv
    · cases heq
    · rw [hdv]
      cases heq
      rfl

theorem decodeTermAt_bytes {data : List Nat} {off : Nat} (h : off < data.length)
    (ht : data.getD off 0 = TYPE_BYTES) :
    decodeTermAt data off =
      match decodeVarintGteZero data (off + 1) with
      | .error e => .error e
      | .ok (len, o) => .ok (.dbytes ((data.drop o).take len), o + len) := by
  rw [decodeTermAt, decodeTerm, dif_neg (by omega)]
  rw [if_neg (by rw [ht]; decide), if_neg (by rw [ht]; decide), if_neg (by rw [ht]; decide),
    if_neg (by rw [ht]; decide), if_pos ht]
  split
  · rename_i e heq
    split at heq <;> rename_i hdv
    · rw [hdv]
      cases heq
      rfl
    · cases heq
  · rename_i p v o heq
    split at heq <;> rename_i hdv
    · cases heq
    · rw [hdv]
      cases heq
      rfl

theorem decodeTermAt_list {data : List Nat} {off : Nat} (h : off < data.length)
    (ht : data.getD off 0 = TYPE_LIST) :
    decodeTermAt data off =
      match decodeVarintGteZero data (off + 1) with
      | .error e => .error e
      | .ok (count, o) =>
        match decodeListAt data count o with
        | .error e => .error e
        | .ok (items, o2) => .ok (.dlist items, o2) := by
  rw [decodeTermAt, decodeTerm, dif_neg (by omega)]
  rw [if_neg (by rw [ht]; decide), if_neg (by rw [ht]; decide), if_neg (by rw [ht]; decide),
    if_neg (by rw [ht]; decide), if_neg (by rw [ht]; decide), if_pos ht]
  split
  · rename_i e heq
    split at heq <;> rename_i hdv
    · rw [hdv]
      cases heq
      rfl
    · rename_i count o
      rw [hdv]
      dsimp only
      split at heq <;> rename_i hdl
      · rw [decodeListAt, hdl]
        cases heq
        rfl
      · cases heq
  · rename_i p v o2 heq
    split at heq <;> rename_i hdv
    · cases heq
    · rename_i count o
      rw [hdv]
      dsimp only
      split at heq <;> rename_i hdl
      · cases heq
      · rw [decodeListAt, hdl]
        cases heq
        rfl

theorem decodeTermAt_map {data : List Nat} {off : Nat} (h : off < data.length)
    (ht : data.getD off 0 = TYPE_MAP) :
    decodeTermAt data off =
      match decodeVarintGteZero data (off + 1) with
      | .error e => .error e
      | .ok (count, o) =>
        match decodeMapEntriesAt data count o none with
        | .error e => .error e
        | .ok (entries, o2) => .ok (.dmap entries, o2) := by
  rw [decodeTermAt, decodeTerm, dif_neg (by omega)]
  rw [if_neg (by rw [ht]; decide), if_neg (by rw [ht]; decide), if_neg (by rw [ht]; decide),
    if_neg (by rw [ht]; decide), if_neg (by rw [ht]; decide), if_neg (by rw [ht]; decide),
    if_pos ht]
  split
  · rename_i e heq
    split at heq <;> rename_i hdv
    · rw [hdv]
      cases heq
      rfl
    · rename_i count o
      rw [hdv]
      dsimp only
      split at heq <;> rename_i hdm
      · rw [decodeMapEntriesAt, hdm]
        cases heq
        rfl
      · cases heq
  · rename_i p v o2 heq
    split at heq <;> rename_i hdv
    · cases heq
    · rename_i count o
      rw [hdv]
      dsimp only
      split at heq <;> rename_i hdm
      · cases heq
      · rw [decodeMapEntriesAt, hdm]
        cases heq
        rfl

theorem decodeTermAt_unknown {data : List Nat} {off : Nat} (h : off < data.length)
    (ht0 : data.getD off 0 ≠ TYPE_NULL) (ht1 : data.getD off 0 ≠ TYPE_TRUE)
    (ht2 : data.getD off 0 ≠ TYPE_FALSE) (ht3 : data.getD off 0 ≠ TYPE_INT)
    (ht5 : data.getD off 0 ≠ TYPE_BYTES) (ht6 : data.getD off 0 ≠ TYPE_LIST)
    (ht7 : data.getD off 0 ≠ TYPE_MAP) :
    decodeTermAt data off = .error .unknownType := by
  rw [decodeTermAt, decodeTerm, dif_neg (by omega)]
  rw [if_neg ht0, if_neg ht1, if_neg ht2, if_neg ht3, if_neg ht5, if_neg ht6, if_neg ht7]

theorem decodeListAt_zero {data : List Nat} {off : Nat} :
    decodeListAt data 0 off = .ok ([], off) := by
  rw [decodeListAt, decodeList]

theorem decodeListAt_succ {data : List Nat} {c off : Nat} :
    decodeListAt data (c + 1) off =
      match decodeTermAt data off with
      | .error e => .error e
      | .ok (item, o1) =>
        match decodeListAt data c o1 with
        | .error e => .error e
        | .ok (items, o2) => .ok (item :: items, o2) := by
  rw [decodeListAt, decodeList]
  rcases hdt : decodeTerm data off with e | ⟨item, o1, h1⟩
  · rw [decodeTermAt, hdt]
  · rw [decodeTermAt, hdt]
    dsimp only
    rcases hdl : decodeList data c o1 with e | ⟨items, o2, h2⟩
    · rw [decodeListAt, hdl]
    · rw [decodeListAt, hdl]

theorem decodeMapEntriesAt_zero {data : List Nat} {off : Nat} {prev : Option (List Nat)} :
    decodeMapEntriesAt data 0 off prev = .ok ([], off) := by
  rw [decodeMapEntriesAt, decodeMapEntries]

theorem decodeMapEntriesAt_succ {data : List Nat} {c off : Nat} {prev : Option (List Nat)} :
    decodeMapEntriesAt data (c + 1) off prev =
      match decodeTermAt data off with
      | .error e => .error e
      | .ok (key, o1) =>
        if violates prev ((data.drop off).take (o1 - off)) then .error .mapNotCanonical
        else
          match decodeTermAt data o1 with
          | .error e => .error e
          | .ok (value, o2) =>
            match decodeMapEntriesAt data c o2 (some ((data.drop off).take (o1 - off))) with
            | .error e => .error e
            | .ok (entries, o3) => .ok ((key, value) :: entries, o3) := by
  rw [decodeMapEntriesAt, decodeMapEntries]
  rcases hdt : decodeTerm data off with e | ⟨key, o1, h1⟩
  · rw [decodeTermAt, hdt]
  · rw [decodeTermAt, hdt]
    dsimp only
    by_cases hv : violates prev ((data.drop off).take (o1 - off))
    · rw [if_pos hv, if_pos hv]
    · rw [if_neg hv, if_neg hv]
      rcases hdt2 : decodeTerm data o1 with e | ⟨value, o2, h2⟩
      · rw [decodeTermAt, hdt2]
      · rw [decodeTermAt, hdt2]
        dsimp only
        rcases hdm : decodeMapEntries data c o2 (some ((data.drop off).take (o1 - off)))
          with e | ⟨entries, o3, h3⟩
        · rw [decodeMapEntriesAt, hdm]
        · rw [decodeMapEntriesAt, hdm]

/-! ## Encoded bytes of a value, well-formedness, and the projection relation -/

/-- The encoded bytes of a value, as a total function (junk `[]` when
`encodeTerm` fails); used to state key distinctness and ordering. -/
def encB (v : SVal) : List Nat :=
  match encodeTerm v with
  | .ok bs => bs
  | .error _ => []

theorem encB_eq {v : SVal} {bs : List Nat} (h : encodeTerm v = .ok bs) : encB v = bs := by
  rw [encB, h]

mutual

/-- The domain of the round-trip law: values of the encodable union that the
JavaScript type system can actually produce (byte values below 256, lengths
within the safe-integer bound) with integers of magnitude at most `2^53 - 1`
and keyed collections whose keys have pairwise distinct canonical key
bytes. -/
def Wf : SVal → Prop
  | .vnull => True
  | .vbool _ => True
  | .vnum q => q.den = 1 ∧ q.num.natAbs ≤ 2 ^ 53 - 1
  | .vbigint n => n.natAbs ≤ 2 ^ 53 - 1
  | .vstr s => (∀ b ∈ s, b < 256) ∧ s.length ≤ 2 ^ 53 - 1
  | .vbytes b => (∀ x ∈ b, x < 256) ∧ b.length ≤ 2 ^ 53 - 1
  | .vlist xs => xs.length ≤ 2 ^ 53 - 1 ∧ WfList xs
  | .vobj es => es.length ≤ 2 ^ 53 - 1 ∧ WfObjEntries es ∧
      (es.map fun p => encB (.vstr p.1)).Pairwise (· ≠ ·)
  | .vmap es => es.length ≤ 2 ^ 53 - 1 ∧ WfMapEntries es ∧
      (es.map fun p => encB p.1).Pairwise (· ≠ ·)
  | .vundef => False

/-- `Wf` on each element of a list. -/
def WfList : List SVal → Prop
  | [] => True
  | x :: xs => Wf x ∧ WfList xs

/-- `Wf` on the keys (as strings) and values of object entries. -/
def WfObjEntries : List (List Nat × SVal) → Prop
  | [] => True
  | (k, v) :: rest =>
      ((∀ b ∈ k, b < 256) ∧ k.length ≤ 2 ^ 53 - 1) ∧ Wf v ∧ WfObjEntries rest

/-- `Wf` on the keys and values of `Map` entries. -/
def WfMapEntries : List (SVal × SVal) → Prop
  | [] => True
  | (k, v) :: rest => Wf k ∧ Wf v ∧ WfMapEntries rest

end

/-- The decoded-value projection, as a relation: strings project to their
UTF-8 bytes, numbers and bigints to arbitrary-precision integers, lists
pointwise, and both objects and `Map`s to a mapping with the same entries
(some reordering `es'` of the entries projects pointwise onto the decoded
entry list). -/
inductive Projects : SVal → DVal → Prop where
  | null : Projects .vnull .dnull
  | bool (b : Bool) : Projects (.vbool b) (.dbool b)
  | num {q : ℚ} (h : q.den = 1) : Projects (.vnum q) (.dint q.num)
  | bigint (n : Int) : Projects (.vbigint n) (.dint n)
  | str (s : List Nat) : Projects (.vstr s) (.dbytes s)
  | bytes (b : List Nat) : Projects (.vbytes b) (.dbytes b)
  | list {xs : List SVal} {ds : List DVal} (h : List.Forall₂ Projects xs ds) :
      Projects (.vlist xs) (.dlist ds)
  | map {es es' : List (SVal × SVal)} {ds : List (DVal × DVal)}
      (hperm : List.Perm es' es)
      (hk : List.Forall₂ Projects (es'.map Prod.fst) (ds.map Prod.fst))
      (hv : List.Forall₂ Projects (es'.map Prod.snd) (ds.map Prod.snd)) :
      Projects (.vmap es) (.dmap ds)
  | obj {es : List (List Nat × SVal)} {d : DVal}
      (h : Projects (.vmap (es.map fun p => (.vstr p.1, p.2))) d) :
      Projects (.vobj es) d

/-- The round-trip property of a single encodable value: its encoding
succeeds, produces genuine bytes, and decoding it back from any position of
any buffer yields its projection while consuming exactly its bytes. -/
def EncOK (v : SVal) : Prop :=
  ∃ bs, encodeTerm v = .ok bs ∧ (∀ b ∈ bs, b < 256) ∧
    ∀ data off rest, data.drop off = bs ++ rest →
      ∃ d, decodeTermAt data off = .ok (d, off + bs.length) ∧ Projects v d

theorem encodeSeq_eq {xs : List SVal} (h : ∀ x ∈ xs, ∃ bs, encodeTerm x = .ok bs) :
    encodeSeq xs = .ok (xs.map encB).flatten := by
  induction xs with
  | nil => simp [encodeSeq]
  | cons x t ih =>
    obtain ⟨bs, hbs⟩ := h x (List.mem_cons_self x t)
    rw [encodeSeq, hbs, ih fun y hy => h y (List.mem_cons_of_mem x hy)]
    dsimp only
    rw [List.map_cons, List.flatten_cons, encB_eq hbs]

theorem encodeMapEntriesE_eq {es : List (SVal × SVal)}
    (h : ∀ p ∈ es, (∃ b1, encodeTerm p.1 = .ok b1) ∧ ∃ b2, encodeTerm p.2 = .ok b2) :
    encodeMapEntriesE es = .ok (es.map fun p => (encB p.1, encB p.2)) := by
  induction es with
  | nil => simp [encodeMapEntriesE]
  | cons p t ih =>
    obtain ⟨⟨b1, h1⟩, b2, h2⟩ := h p (List.mem_cons_self p t)
    obtain ⟨k, v⟩ := p
    rw [encodeMapEntriesE, h1, h2, ih fun q hq => h q (List.mem_cons_of_mem _ hq)]
    dsimp only
    rw [List.map_cons, encB_eq h1, encB_eq h2]

theorem encodeObjEntries_eq {es : List (List Nat × SVal)}
    (h : ∀ p ∈ es, (∃ b1, encodeTerm (.vstr p.1) = .ok b1) ∧ ∃ b2, encodeTerm p.2 = .ok b2) :
    encodeObjEntries es = .ok (es.map fun p => (encB (.vstr p.1), encB p.2)) := by
  induction es with
  | nil => simp [encodeObjEntries]
  | cons p t ih =>
    obtain ⟨⟨b1, h1⟩, b2, h2⟩ := h p (List.mem_cons_self p t)
    obtain ⟨k, v⟩ := p
    rw [encodeObjEntries, h1, h2, ih fun q hq => h q (List.mem_cons_of_mem _ hq)]
    dsimp only
    rw [List.map_cons, encB_eq h1, encB_eq h2]

/-- The object branch of `encodeTerm` coincides with the `Map` branch on the
entries with the keys read as strings. -/
theorem encodeTerm_vobj_eq_vmap (es : List (List Nat × SVal)) :
    encodeTerm (.vobj es) = encodeTerm (.vmap (es.map fun p => (.vstr p.1, p.2))) := by
  have hents : ∀ es' : List (List Nat × SVal),
      encodeObjEntries es' = encodeMapEntriesE (es'.map fun p => (.vstr p.1, p.2)) := by
    intro es'
    induction es' with
    | nil => simp [encodeObjEntries, encodeMapEntriesE]
    | cons p t ih =>
      obtain ⟨k, v⟩ := p
      rw [encodeObjEntries, List.map_cons, encodeMapEntriesE, ih]
  rw [encodeTerm, encodeTerm, hents]

theorem drop_append_of_drop {α : Type _} {l : List α} {off : Nat} {bs u : List α}
    (h : l.drop off = bs ++ u) : l.drop (off + bs.length) = u := by
  have hd := List.drop_drop bs.length off l
  rw [h, List.drop_left] at hd
  exact hd.symm

/-- Round trip for the element sequence of a list. -/
theorem encodeSeq_encOK {xs : List SVal} (h : ∀ x ∈ xs, EncOK x) :
    ∃ body, encodeSeq xs = .ok body ∧ (∀ b ∈ body, b < 256) ∧
      ∀ data off rest, data.drop off = body ++ rest →
        ∃ ds, decodeListAt data xs.length off = .ok (ds, off + body.length) ∧
          List.Forall₂ Projects xs ds := by
  induction xs with
  | nil =>
    refine ⟨[], by simp [encodeSeq], by simp, fun data off rest hd => ⟨[], ?_, List.Forall₂.nil⟩⟩
    rw [List.length_nil, decodeListAt_zero]
    simp
  | cons x t ih =>
    obtain ⟨bs, hbs, hblt, hdec⟩ := h x (List.mem_cons_self x t)
    obtain ⟨body, hbody, hbodylt, hdecs⟩ := ih fun y hy => h y (List.mem_cons_of_mem _ hy)
    refine ⟨bs ++ body, ?_, ?_, ?_⟩
    · rw [encodeSeq, hbs, hbody]
    · intro b hb
      rcases List.mem_append.mp hb with hb | hb
      · exact hblt b hb
      · exact hbodylt b hb
    · intro data off rest hd
      rw [List.append_assoc] at hd
      obtain ⟨d, hdt, hproj⟩ := hdec data off (body ++ rest) hd
      obtain ⟨ds, hds, hfs⟩ := hdecs data (off + bs.length) rest (drop_append_of_drop hd)
      refine ⟨d :: ds, ?_, List.Forall₂.cons hproj hfs⟩
      rw [List.length_cons, decodeListAt_succ, hdt]
      dsimp only
      rw [hds]
      dsimp only
      have hlen : off + bs.length + body.length = off + (bs ++ body).length := by
        rw [List.length_append]
        omega
      rw [hlen]

/-- Round trip and canonicality acceptance for a map entry block: entries in
strictly increasing key-byte order, each key and value individually round
tripping, decode to the corresponding entry list. -/
theorem decodeMapEntriesAt_spec :
    ∀ (es : List (SVal × SVal)) (data : List Nat) (off : Nat) (rest : List Nat)
      (prev : Option (List Nat)),
      (∀ p ∈ es, EncOK p.1 ∧ EncOK p.2) →
      data.drop off = (es.map fun p => encB p.1 ++ encB p.2).flatten ++ rest →
      es.Pairwise (fun a b => compareBytes (encB a.1) (encB b.1) < 0) →
      (∀ pb, prev = some pb → ∀ q ∈ es, compareBytes pb (encB q.1) < 0) →
      ∃ ds, decodeMapEntriesAt data es.length off prev =
          .ok (ds, off + ((es.map fun p => encB p.1 ++ encB p.2).flatten).length) ∧
        List.Forall₂ Projects (es.map Prod.fst) (ds.map Prod.fst) ∧
        List.Forall₂ Projects (es.map Prod.snd) (ds.map Prod.snd) := by
  intro es
  induction es with
  | nil =>
    intro data off rest prev _ _ _ _
    refine ⟨[], ?_, List.Forall₂.nil, List.Forall₂.nil⟩
    rw [List.length_nil, decodeMapEntriesAt_zero]
    simp
  | cons p t ih =>
    intro data off rest prev hok hd hpw hprev
    obtain ⟨k, v⟩ := p
    obtain ⟨hokk, hokv⟩ := hok (k, v) (List.mem_cons_self _ t)
    obtain ⟨kb, hkb, hkblt, hkdec⟩ := hokk
    obtain ⟨vb, hvb, hvblt, hvdec⟩ := hokv
    have hkbB : encB k = kb := encB_eq hkb
    have hvbB : encB v = vb := encB_eq hvb
    rw [List.map_cons, List.flatten_cons, hkbB, hvbB] at hd
    have hdk : data.drop off = kb ++ (vb ++ ((t.map fun p => encB p.1 ++ encB p.2).flatten ++ rest)) := by
      rw [hd]
      simp [List.append_assoc]
    obtain ⟨dk, hdkdec, hdkproj⟩ := hkdec data off _ hdk
    have hdv : data.drop (off + kb.length) =
        vb ++ ((t.map fun p => encB p.1 ++ encB p.2).flatten ++ rest) :=
      drop_append_of_drop hdk
    obtain ⟨dv, hdvdec, hdvproj⟩ := hvdec data (off + kb.length) _ hdv
    have hdt : data.drop (off + kb.length + vb.length) =
        (t.map fun p => encB p.1 ++ encB p.2).flatten ++ rest :=
      drop_append_of_drop hdv
    have hkeybytes : (data.drop off).take (off + kb.length - off) = kb := by
      have : off + kb.length - off = kb.length := by omega
      rw [this, hdk, List.take_left]
    have hprevtail : ∀ pb, (some kb : Option (List Nat)) = some pb →
        ∀ q ∈ t, compareBytes pb (encB q.1) < 0 := by
      intro pb hpb q hq
      cases hpb
      have hlt := (List.pairwise_cons.mp hpw).1 q hq
      rw [hkbB] at hlt
      exact hlt
    obtain ⟨ds, hdsdec, hdsk, hdsv⟩ := ih data (off + kb.length + vb.length) rest (some kb)
      (fun q hq => hok q (List.mem_cons_of_mem _ hq))
      hdt
      (List.Pairwise.sublist (List.sublist_cons_self _ _) hpw)
      hprevtail
    refine ⟨(dk, dv) :: ds, ?_, ?_, ?_⟩
    · rw [List.length_cons, decodeMapEntriesAt_succ, hdkdec]
      dsimp only
      rw [hkeybytes]
      have hviol : violates prev kb = false := by
        cases prev with
        | none => rfl
        | some pb =>
          have hlt := hprev pb rfl (k, v) (List.mem_cons_self _ t)
          rw [hkbB] at hlt
          have := compareBytes_antisymm pb kb
          simp only [violates, decide_eq_false_iff_not, not_le]
          omega
      rw [hviol]
      simp only [Bool.false_eq_true, if_false]
      rw [hdvdec]
      dsimp only
      rw [hdsdec]
      dsimp only
      congr 2
      rw [List.map_cons, List.flatten_cons, hkbB, hvbB]
      simp only [List.length_append]
      omega
    · rw [List.map_cons, List.map_cons]
      exact List.Forall₂.cons hdkproj hdsk
    · rw [List.map_cons, List.map_cons]
      exact List.Forall₂.cons hdvproj hdsv

/-! ## Sorting the entries of a keyed collection -/

/-- The key-byte comparator lifted to entries of encodable values. -/
def entryLES (a b : SVal × SVal) : Bool := compareBytes (encB a.1) (encB b.1) ≤ 0

theorem entryLES_trans : ∀ a b c, entryLES a b → entryLES b c → entryLES a c := by
  intro a b c hab hbc
  simp only [entryLES, decide_eq_true_eq] at hab hbc ⊢
  exact compareBytes_le_trans _ _ _ hab hbc

theorem entryLES_total : ∀ a b, entryLES a b || entryLES b a := by
  intro a b
  simp only [entryLES, Bool.or_eq_true, decide_eq_true_eq]
  exact compareBytes_total _ _

theorem entryLE_trans : ∀ a b c : List Nat × List Nat, entryLE a b → entryLE b c → entryLE a c := by
  intro a b c hab hbc
  simp only [entryLE, decide_eq_true_eq] at hab hbc ⊢
  exact compareBytes_le_trans _ _ _ hab hbc

theorem entryLE_total : ∀ a b : List Nat × List Nat, entryLE a b || entryLE b a := by
  intro a b
  simp only [entryLE, Bool.or_eq_true, decide_eq_true_eq]
  exact compareBytes_total _ _

/-- Sorting the byte pairs of the collected entries is sorting the entries
and then taking byte pairs. -/
theorem mergeSort_entries_map (esM : List (SVal × SVal)) :
    ((esM.map fun p => (encB p.1, encB p.2)).mergeSort entryLE) =
      (esM.mergeSort entryLES).map fun p => (encB p.1, encB p.2) :=
  (@List.map_mergeSort (SVal × SVal) (List Nat × List Nat) entryLES entryLE
    (fun p => (encB p.1, encB p.2)) esM (fun _ _ _ _ => rfl)).symm

/-- The sorted entries of a keyed collection with pairwise distinct key bytes
are in strictly increasing key-byte order. -/
theorem mergeSort_entries_strict {esM : List (SVal × SVal)}
    (hdis : (esM.map fun p => encB p.1).Pairwise (· ≠ ·)) :
    (esM.mergeSort entryLES).Pairwise
      (fun a b => compareBytes (encB a.1) (encB b.1) < 0) := by
  have hsorted := List.sorted_mergeSort entryLES_trans entryLES_total esM
  have hperm := List.mergeSort_perm esM entryLES
  have hneM : esM.Pairwise (fun a b => encB a.1 ≠ encB b.1) := List.pairwise_map.mp hdis
  have hsymm : ∀ {x y : SVal × SVal},
      (fun a b => encB a.1 ≠ encB b.1) x y → (fun a b => encB a.1 ≠ encB b.1) y x :=
    fun h => Ne.symm h
  have hne : (esM.mergeSort entryLES).Pairwise (fun a b => encB a.1 ≠ encB b.1) :=
    (List.Perm.pairwise_iff hsymm hperm).mpr hneM
  refine (hsorted.and hne).imp ?_
  intro a b hab
  obtain ⟨hle, hne⟩ := hab
  simp only [entryLES, decide_eq_true_eq] at hle
  rcases lt_or_eq_of_le hle with h | h
  · exact h
  · exact absurd (compareBytes_eq_zero_iff.mp h) hne

theorem encodeVarint_nat_ok {m : Nat} (hm : m ≤ 2 ^ 53 - 1) :
    ∃ cv, encodeVarint (m : Int) = .ok cv := by
  by_cases h0 : (m : Int) = 0
  · exact ⟨[0], by rw [h0, encodeVarint_zero]⟩
  · refine ⟨_, encodeVarint_ok h0 ?_⟩
    have hp : (2 : Nat) ^ 53 - 1 < 256 ^ 16 := by norm_num
    simp only [Int.natAbs_ofNat]
    omega

/-- Round trip for a `Map` with pairwise distinct key bytes. -/
theorem encodeTerm_vmap_encOK {esM : List (SVal × SVal)}
    (hlen : esM.length ≤ 2 ^ 53 - 1)
    (hdis : (esM.map fun p => encB p.1).Pairwise (· ≠ ·))
    (hP : ∀ p ∈ esM, EncOK p.1 ∧ EncOK p.2) :
    ∃ bs, encodeTerm (.vmap esM) = .ok bs ∧ (∀ b ∈ bs, b < 256) ∧
      ∀ data off rest, data.drop off = bs ++ rest →
        ∃ ds, decodeTermAt data off = .ok (.dmap ds, off + bs.length) ∧
          Projects (.vmap esM) (.dmap ds) := by
  have hents : encodeMapEntriesE esM = .ok (esM.map fun p => (encB p.1, encB p.2)) := by
    refine encodeMapEntriesE_eq fun p hp => ?_
    obtain ⟨⟨b1, h1, _, _⟩, ⟨b2, h2, _, _⟩⟩ := hP p hp
    exact ⟨⟨b1, h1⟩, ⟨b2, h2⟩⟩
  obtain ⟨cv, hcv⟩ := encodeVarint_nat_ok hlen
  have hflatdef :
      ((esM.mergeSort entryLES).map fun p => encB p.1 ++ encB p.2).flatten =
      ((esM.mergeSort entryLES).map fun p => encB p.1 ++ encB p.2).flatten := rfl
  refine ⟨TYPE_MAP :: cv ++ ((esM.mergeSort entryLES).map fun p => encB p.1 ++ encB p.2).flatten,
    ?_, ?_, ?_⟩
  · rw [encodeTerm, hents]
    dsimp only
    rw [emitMap]
    rw [mergeSort_entries_map, List.length_map, hcv]
    dsimp only
    rw [List.map_map]
    rfl
  · intro b hb
    rcases List.mem_cons.mp hb with rfl | hb
    · norm_num [TYPE_MAP]
    rcases List.mem_append.mp hb with hb | hb
    · exact encodeVarint_bytes_lt hcv b hb
    · obtain ⟨l, hl, hbl⟩ := List.mem_flatten.mp hb
      obtain ⟨p, hp, rfl⟩ := List.mem_map.mp hl
      have hpM : p ∈ esM := List.mem_mergeSort.mp hp
      obtain ⟨⟨b1, h1, hb1lt, _⟩, ⟨b2, h2, hb2lt, _⟩⟩ := hP p hpM
      rw [encB_eq h1, encB_eq h2] at hbl
      rcases List.mem_append.mp hbl with hbl | hbl
      · exact hb1lt b hbl
      · exact hb2lt b hbl
  · intro data off rest hd
    have hlt : off < data.length := lt_length_of_drop_cons hd
    have htag : data.getD off 0 = TYPE_MAP := getD_of_drop_cons hd
    have hd' : data.drop off = TYPE_MAP ::
        (cv ++ (((esM.mergeSort entryLES).map fun p => encB p.1 ++ encB p.2).flatten ++ rest)) := by
      rw [hd, List.append_assoc]
      rfl
    have hd1 := drop_cons_succ hd'
    have hcnt : decodeVarintGteZero data (off + 1) = .ok (esM.length, off + 1 + cv.length) :=
      decodeVarintGteZero_encode hlen hcv hd1
    have hd2 : data.drop (off + 1 + cv.length) =
        ((esM.mergeSort entryLES).map fun p => encB p.1 ++ encB p.2).flatten ++ rest :=
      drop_append_of_drop hd1
    have hPES : ∀ p ∈ esM.mergeSort entryLES, EncOK p.1 ∧ EncOK p.2 :=
      fun p hp => hP p (List.mem_mergeSort.mp hp)
    have hstrict := mergeSort_entries_strict hdis
    have hprevnone : ∀ pb, (none : Option (List Nat)) = some pb →
        ∀ q ∈ esM.mergeSort entryLES, compareBytes pb (encB q.1) < 0 := by
      intro pb hpb
      cases hpb
    obtain ⟨ds, hds, hdsk, hdsv⟩ := decodeMapEntriesAt_spec (esM.mergeSort entryLES)
      data (off + 1 + cv.length) rest none hPES hd2 hstrict hprevnone
    have hESlen : (esM.mergeSort entryLES).length = esM.length :=
      (List.mergeSort_perm esM entryLES).length_eq
    rw [hESlen] at hds
    refine ⟨ds, ?_, Projects.map (List.mergeSort_perm esM entryLES) hdsk hdsv⟩
    rw [decodeTermAt_map hlt htag, hcnt]
    dsimp only
    rw [hds]
    dsimp only
    congr 2
    simp only [List.length_cons, List.length_append]
    omega

/-- Round trip for a single integer term. -/
theorem encOK_int_core {m : Int} (hm : m.natAbs ≤ 2 ^ 53 - 1) :
    ∃ vb, encodeVarint m = .ok vb ∧ (∀ b ∈ TYPE_INT :: vb, b < 256) ∧
      ∀ data off rest, data.drop off = (TYPE_INT :: vb) ++ rest →
        decodeTermAt data off = .ok (.dint m, off + (TYPE_INT :: vb).length) := by
  have hex : ∃ vb, encodeVarint m = .ok vb := by
    by_cases h0 : m = 0
    · exact ⟨[0], by rw [h0, encodeVarint_zero]⟩
    · refine ⟨_, encodeVarint_ok h0 ?_⟩
      have hp : (2 : Nat) ^ 53 - 1 < 256 ^ 16 := by norm_num
      omega
  obtain ⟨vb, hvb⟩ := hex
  refine ⟨vb, hvb, ?_, ?_⟩
  · intro b hb
    rcases List.mem_cons.mp hb with rfl | hb
    · norm_num [TYPE_INT]
    · exact encodeVarint_bytes_lt hvb b hb
  · intro data off rest hd
    simp only [List.cons_append] at hd
    have hlt : off < data.length := lt_length_of_drop_cons hd
    have htag : data.getD off 0 = TYPE_INT := getD_of_drop_cons hd
    have hd1 : data.drop (off + 1) = vb ++ rest := drop_cons_succ hd
    rw [decodeTermAt_int hlt htag, decodeVarint_encode hm hvb hd1]
    dsimp only
    congr 2
    simp only [List.length_cons]
    omega

/-- Round trip for a single byte-string term. -/
theorem encOK_bytes_core {content : List Nat} (hlen : content.length ≤ 2 ^ 53 - 1)
    (hblt : ∀ b ∈ content, b < 256) :
    ∃ lv, encodeVarint (content.length : Int) = .ok lv ∧
      (∀ b ∈ TYPE_BYTES :: lv ++ content, b < 256) ∧
      ∀ data off rest, data.drop off = (TYPE_BYTES :: lv ++ content) ++ rest →
        decodeTermAt data off =
          .ok (.dbytes content, off + (TYPE_BYTES :: lv ++ content).length) := by
  obtain ⟨lv, hlv⟩ := encodeVarint_nat_ok hlen
  refine ⟨lv, hlv, ?_, ?_⟩
  · intro b hb
    rcases List.mem_cons.mp hb with rfl | hb
    · norm_num [TYPE_BYTES]
    rcases List.mem_append.mp hb with hb | hb
    · exact encodeVarint_bytes_lt hlv b hb
    · exact hblt b hb
  · intro data off rest hd
    simp only [List.cons_append, List.append_assoc] at hd
    have hlt : off < data.length := lt_length_of_drop_cons hd
    have htag : data.getD off 0 = TYPE_BYTES := getD_of_drop_cons hd
    have hd1 : data.drop (off + 1) = lv ++ (content ++ rest) := drop_cons_succ hd
    have hcnt := decodeVarintGteZero_encode hlen hlv hd1
    rw [decodeTermAt_bytes hlt htag, hcnt]
    dsimp only
    rw [drop_append_of_drop hd1, List.take_left]
    congr 2
    simp only [List.length_cons, List.length_append]
    omega

theorem WfList_mem : ∀ {xs : List SVal}, WfList xs → ∀ {x}, x ∈ xs → Wf x := by
  intro xs
  induction xs with
  | nil => intro _ x hx; cases hx
  | cons a t ih =>
    intro h x hx
    rw [WfList] at h
    rcases List.mem_cons.mp hx with rfl | hx
    · exact h.1
    · exact ih h.2 hx

theorem WfMapEntries_mem : ∀ {es : List (SVal × SVal)}, WfMapEntries es →
    ∀ {p}, p ∈ es → Wf p.1 ∧ Wf p.2 := by
  intro es
  induction es with
  | nil => intro _ p hp; cases hp
  | cons a t ih =>
    intro h p hp
    obtain ⟨k, v⟩ := a
    rw [WfMapEntries] at h
    rcases List.mem_cons.mp hp with rfl | hp
    · exact ⟨h.1, h.2.1⟩
    · exact ih h.2.2 hp

theorem WfObjEntries_mem : ∀ {es : List (List Nat × SVal)}, WfObjEntries es →
    ∀ {p}, p ∈ es → ((∀ b ∈ p.1, b < 256) ∧ p.1.length ≤ 2 ^ 53 - 1) ∧ Wf p.2 := by
  intro es
  induction es with
  | nil => intro _ p hp; cases hp
  | cons a t ih =>
    intro h p hp
    obtain ⟨k, v⟩ := a
    rw [WfObjEntries] at h
    rcases List.mem_cons.mp hp with rfl | hp
    · exact ⟨h.1, h.2.1⟩
    · exact ih h.2.2 hp

/-- The workhorse: every well-formed value of the encodable union encodes
successfully and decodes back to its projection from any buffer position. -/
theorem wf_encOK : ∀ v : SVal, Wf v → EncOK v := by
  suffices h : ∀ (n : Nat) (v : SVal), sizeOf v < n → Wf v → EncOK v from
    fun v hv => h (sizeOf v + 1) v (by omega) hv
  intro n
  induction n with
  | zero => intro v hv; omega
  | succ n ih =>
    intro v hsz hwf
    cases v with
    | vnull =>
      refine ⟨[TYPE_NULL], by simp [encodeTerm], by norm_num [TYPE_NULL], ?_⟩
      intro data off rest hd
      simp only [List.cons_append, List.nil_append] at hd
      refine ⟨.dnull, ?_, Projects.null⟩
      rw [decodeTermAt_null (lt_length_of_drop_cons hd) (getD_of_drop_cons hd)]
      rfl
    | vbool b =>
      cases b
      · refine ⟨[TYPE_FALSE], by simp [encodeTerm], by norm_num [TYPE_FALSE], ?_⟩
        intro data off rest hd
        simp only [List.cons_append, List.nil_append] at hd
        refine ⟨.dbool false, ?_, Projects.bool false⟩
        rw [decodeTermAt_false (lt_length_of_drop_cons hd) (getD_of_drop_cons hd)]
        rfl
      · refine ⟨[TYPE_TRUE], by simp [encodeTerm], by norm_num [TYPE_TRUE], ?_⟩
        intro data off rest hd
        simp only [List.cons_append, List.nil_append] at hd
        refine ⟨.dbool true, ?_, Projects.bool true⟩
        rw [decodeTermAt_true (lt_length_of_drop_cons hd) (getD_of_drop_cons hd)]
        rfl
    | vnum q =>
      simp only [Wf] at hwf
      obtain ⟨hden, hm⟩ := hwf
      obtain ⟨vb, hvb, hbytes, hdec⟩ := encOK_int_core hm
      refine ⟨TYPE_INT :: vb, ?_, hbytes, ?_⟩
      · simp only [encodeTerm]
        rw [jsBigInt, if_pos hden]
        dsimp only
        rw [hvb]
      · intro data off rest hd
        exact ⟨.dint q.num, hdec data off rest hd, Projects.num hden⟩
    | vbigint m =>
      simp only [Wf] at hwf
      obtain ⟨vb, hvb, hbytes, hdec⟩ := encOK_int_core hwf
      refine ⟨TYPE_INT :: vb, ?_, hbytes, ?_⟩
      · simp only [encodeTerm]
        rw [hvb]
      · intro data off rest hd
        exact ⟨.dint m, hdec data off rest hd, Projects.bigint m⟩
    | vstr s =>
      simp only [Wf] at hwf
      obtain ⟨hblt, hlen⟩ := hwf
      obtain ⟨lv, hlv, hbytes, hdec⟩ := encOK_bytes_core hlen hblt
      refine ⟨TYPE_BYTES :: lv ++ s, ?_, hbytes, ?_⟩
      · simp only [encodeTerm]
        rw [hlv]
      · intro data off rest hd
        exact ⟨.dbytes s, hdec data off rest hd, Projects.str s⟩
    | vbytes bcontent =>
      simp only [Wf] at hwf
      obtain ⟨hblt, hlen⟩ := hwf
      obtain ⟨lv, hlv, hbytes, hdec⟩ := encOK_bytes_core hlen hblt
      refine ⟨TYPE_BYTES :: lv ++ bcontent, ?_, hbytes, ?_⟩
      · simp only [encodeTerm]
        rw [hlv]
      · intro data off rest hd
        exact ⟨.dbytes bcontent, hdec data off rest hd, Projects.bytes bcontent⟩
    | vlist xs =>
      simp only [Wf] at hwf
      obtain ⟨hlen, hwfl⟩ := hwf
      have hx : ∀ x ∈ xs, EncOK x := by
        intro x hxm
        refine ih x ?_ (WfList_mem hwfl hxm)
        have h1 := List.sizeOf_lt_of_mem hxm
        have h2 : sizeOf (SVal.vlist xs) = 1 + sizeOf xs := by simp
        omega
      obtain ⟨body, hbody, hbodylt, hdecs⟩ := encodeSeq_encOK hx
      obtain ⟨lv, hlv⟩ := encodeVarint_nat_ok hlen
      refine ⟨TYPE_LIST :: lv ++ body, ?_, ?_, ?_⟩
      · simp only [encodeTerm]
        rw [hlv]
        dsimp only
        rw [hbody]
      · intro b hb
        rcases List.mem_cons.mp hb with rfl | hb
        · norm_num [TYPE_LIST]
        rcases List.mem_append.mp hb with hb | hb
        · exact encodeVarint_bytes_lt hlv b hb
        · exact hbodylt b hb
      · intro data off rest hd
        simp only [List.cons_append, List.append_assoc] at hd
        have hlt : off < data.length := lt_length_of_drop_cons hd
        have htag : data.getD off 0 = TYPE_LIST := getD_of_drop_cons hd
        have hd1 : data.drop (off + 1) = lv ++ (body ++ rest) := drop_cons_succ hd
        have hcnt := decodeVarintGteZero_encode hlen hlv hd1
        obtain ⟨ds, hds, hfs⟩ :=
          hdecs data (off + 1 + lv.length) rest (drop_append_of_drop hd1)
        refine ⟨.dlist ds, ?_, Projects.list hfs⟩
        rw [decodeTermAt_list hlt htag, hcnt]
        dsimp only
        rw [hds]
        dsimp only
        congr 2
        simp only [List.length_cons, List.length_append]
        omega
    | vobj es =>
      simp only [Wf] at hwf
      obtain ⟨hlen, hwfo, hdis⟩ := hwf
      have hlenM : (es.map fun p => (SVal.vstr p.1, p.2)).length ≤ 2 ^ 53 - 1 := by
        rw [List.length_map]
        exact hlen
      have hdisM : ((es.map fun p => (SVal.vstr p.1, p.2)).map fun p => encB p.1).Pairwise
          (· ≠ ·) := by
        rw [List.map_map]
        exact hdis
      have hPM : ∀ p ∈ es.map fun p => (SVal.vstr p.1, p.2), EncOK p.1 ∧ EncOK p.2 := by
        intro p hp
        obtain ⟨q, hq, rfl⟩ := List.mem_map.mp hp
        obtain ⟨⟨hkb, hkl⟩, hv⟩ := WfObjEntries_mem hwfo hq
        have h1 := List.sizeOf_lt_of_mem hq
        have h2 : sizeOf (SVal.vobj es) = 1 + sizeOf es := by simp
        have h3 : sizeOf q = 1 + sizeOf q.1 + sizeOf q.2 := by obtain ⟨a, b⟩ := q; simp
        constructor
        · show EncOK (SVal.vstr q.1)
          refine ih _ ?_ ?_
          · have h4 : sizeOf (SVal.vstr q.1) = 1 + sizeOf q.1 := by simp
            omega
          · simp only [Wf]
            exact ⟨hkb, hkl⟩
        · show EncOK q.2
          exact ih _ (by omega) hv
      obtain ⟨bs, hbs, hblt, hdec⟩ := encodeTerm_vmap_encOK hlenM hdisM hPM
      refine ⟨bs, ?_, hblt, ?_⟩
      · rw [encodeTerm_vobj_eq_vmap, hbs]
      · intro data off rest hd
        obtain ⟨ds, hds, hproj⟩ := hdec data off rest hd
        exact ⟨.dmap ds, hds, Projects.obj hproj⟩
    | vmap es =>
      simp only [Wf] at hwf
      obtain ⟨hlen, hwfm, hdis⟩ := hwf
      have hPM : ∀ p ∈ es, EncOK p.1 ∧ EncOK p.2 := by
        intro p hp
        obtain ⟨hwk, hwv⟩ := WfMapEntries_mem hwfm hp
        have h1 := List.sizeOf_lt_of_mem hp
        have h2 : sizeOf (SVal.vmap es) = 1 + sizeOf es := by simp
        have h3 : sizeOf p = 1 + sizeOf p.1 + sizeOf p.2 := by obtain ⟨a, b⟩ := p; simp
        exact ⟨ih _ (by omega) hwk, ih _ (by omega) hwv⟩
      obtain ⟨bs, hbs, hblt, hdec⟩ := encodeTerm_vmap_encOK hlen hdis hPM
      refine ⟨bs, hbs, hblt, ?_⟩
      intro data off rest hd
      obtain ⟨ds, hds, hproj⟩ := hdec data off rest hd
      exact ⟨.dmap ds, hds, hproj⟩
    | vundef =>
      simp only [Wf] at hwf

/-! ## Top-level assembly helpers -/

theorem map_mod256_id {l : List Nat} (h : ∀ b ∈ l, b < 256) : l.map (· % 256) = l := by
  have : l.map (· % 256) = l.map id := List.map_congr_left fun b hb => Nat.mod_eq_of_lt (h b hb)
  rw [this, List.map_id]

/-- Full round trip through the public entry points, for every well-formed
value. -/
theorem encode_decode_wf {v : SVal} (hwf : Wf v) :
    ∃ bs d, encode v = .ok bs ∧ decode bs = .ok d ∧ Projects v d := by
  obtain ⟨bs, henc, hblt, hdec⟩ := wf_encOK v hwf
  have hmod : bs.map (· % 256) = bs := map_mod256_id hblt
  obtain ⟨d, hdt, hproj⟩ := hdec bs 0 [] (by simp)
  refine ⟨bs, d, ?_, ?_, hproj⟩
  · rw [encode, henc]
    show Except.ok (bs.map (· % 256)) = Except.ok bs
    rw [hmod]
  · rw [decode]
    rw [hmod, hdt]
    show (if 0 + bs.length ≠ bs.length then (Except.error Err.trailingBytes : Except Err DVal)
      else .ok d) = .ok d
    rw [if_neg (by omega)]

/-- The varint bytes of an integer, as a total function (junk `[]` when
`encodeVarint` fails). -/
def encVarintD (n : Int) : List Nat :=
  match encodeVarint n with
  | .ok bs => bs
  | .error _ => []

theorem encVarintD_eq {n : Int} {bs : List Nat} (h : encodeVarint n = .ok bs) :
    encVarintD n = bs := by
  rw [encVarintD, h]

/-- A hand-built keyed-collection buffer: `TYPE_MAP`, the varint entry count,
then each entry's key and value encodings in the *given* order (no
sorting). -/
def handBuiltMap (es : List (SVal × SVal)) : List Nat :=
  TYPE_MAP :: encVarintD (es.length : Int) ++ (es.map fun p => encB p.1 ++ encB p.2).flatten

/-- Reduction of `decode` on a hand-built map buffer to the entry loop. -/
theorem decode_handBuiltMap (es : List (SVal × SVal))
    (hok : ∀ p ∈ es, EncOK p.1 ∧ EncOK p.2) (hlen : es.length ≤ 2 ^ 53 - 1) :
    decode (handBuiltMap es) =
      match decodeMapEntriesAt (handBuiltMap es) es.length
          (1 + (encVarintD (es.length : Int)).length) none with
      | .error e => .error e
      | .ok (entries, o2) =>
          if o2 ≠ (handBuiltMap es).length then .error .trailingBytes
          else .ok (.dmap entries) := by
  obtain ⟨cv, hcv⟩ := encodeVarint_nat_ok hlen
  have hcvD : encVarintD (es.length : Int) = cv := encVarintD_eq hcv
  have hblt : ∀ b ∈ handBuiltMap es, b < 256 := by
    intro b hb
    rw [handBuiltMap] at hb
    rcases List.mem_cons.mp hb with rfl | hb
    · norm_num [TYPE_MAP]
    rcases List.mem_append.mp hb with hb | hb
    · rw [hcvD] at hb
      exact encodeVarint_bytes_lt hcv b hb
    · obtain ⟨l, hl, hbl⟩ := List.mem_flatten.mp hb
      obtain ⟨p, hp, rfl⟩ := List.mem_map.mp hl
      obtain ⟨⟨b1, h1, hb1lt, _⟩, ⟨b2, h2, hb2lt, _⟩⟩ := hok p hp
      rw [encB_eq h1, encB_eq h2] at hbl
      rcases List.mem_append.mp hbl with hbl | hbl
      · exact hb1lt b hbl
      · exact hb2lt b hbl
  have hmod : (handBuiltMap es).map (· % 256) = handBuiltMap es := map_mod256_id hblt
  have hlen0 : 0 < (handBuiltMap es).length := by
    rw [handBuiltMap]
    simp
  have htag : (handBuiltMap es).getD 0 0 = TYPE_MAP := by
    rw [handBuiltMap]
    rfl
  have hd1 : (handBuiltMap es).drop 1 =
      cv ++ ((es.map fun p => encB p.1 ++ encB p.2).flatten ++ []) := by
    rw [handBuiltMap, hcvD]
    simp
  have hcnt : decodeVarintGteZero (handBuiltMap es) 1 = .ok (es.length, 1 + cv.length) := by
    have := decodeVarintGteZero_encode hlen hcv hd1
    simpa using this
  rw [decode]
  rw [hmod, decodeTermAt_map (by omega) htag]
  simp only [Nat.zero_add]
  rw [hcnt, hcvD]
  dsimp only
  rcases hdm : decodeMapEntriesAt (handBuiltMap es) es.length (1 + cv.length) none
    with e | ⟨entries, o2⟩ <;> rfl

/-- If some entry's raw key bytes do not compare strictly greater than the
immediately preceding entry's key bytes, the entry loop fails with
`map_not_canonical`, even though every entry is individually well formed. -/
theorem decodeMapEntriesAt_reject :
    ∀ (pre : List (SVal × SVal)) (a b : SVal × SVal) (suf : List (SVal × SVal))
      (data : List Nat) (off : Nat) (rest : List Nat) (prev : Option (List Nat)),
      (∀ p ∈ pre ++ a :: b :: suf, EncOK p.1 ∧ EncOK p.2) →
      data.drop off =
        ((pre ++ a :: b :: suf).map fun p => encB p.1 ++ encB p.2).flatten ++ rest →
      List.Chain' (fun x y => compareBytes (encB x.1) (encB y.1) < 0) (pre ++ [a]) →
      (∀ pb, prev = some pb → ∀ k ∈ (pre ++ [a]).head?, compareBytes pb (encB k.1) < 0) →
      compareBytes (encB b.1) (encB a.1) ≤ 0 →
      decodeMapEntriesAt data (pre ++ a :: b :: suf).length off prev =
        .error .mapNotCanonical := by
  intro pre
  induction pre with
  | nil =>
    intro a b suf data off rest prev hok hd hchain hprev hba
    obtain ⟨hoka1, hoka2⟩ := hok a (by simp)
    obtain ⟨ka, hka, _, hkadec⟩ := hoka1
    obtain ⟨va, hva, _, hvadec⟩ := hoka2
    obtain ⟨hokb1, _⟩ := hok b (by simp)
    obtain ⟨kb2, hkb2, _, hkbdec⟩ := hokb1
    simp only [List.nil_append, List.map_cons, List.flatten_cons,
      encB_eq hka, encB_eq hva, encB_eq hkb2, List.append_assoc] at hd
    obtain ⟨dka, hdka, _⟩ := hkadec data off _ hd
    have hdva : data.drop (off + ka.length) =
        va ++ (kb2 ++ (encB b.2 ++ (((suf.map fun p => encB p.1 ++ encB p.2).flatten) ++ rest))) :=
      drop_append_of_drop hd
    obtain ⟨dva, hdvadec, _⟩ := hvadec data (off + ka.length) _ hdva
    have hdkb : data.drop (off + ka.length + va.length) =
        kb2 ++ (encB b.2 ++ (((suf.map fun p => encB p.1 ++ encB p.2).flatten) ++ rest)) :=
      drop_append_of_drop hdva
    obtain ⟨dkb, hdkbdec, _⟩ := hkbdec data (off + ka.length + va.length) _ hdkb
    have hkeyA : (data.drop off).take (off + ka.length - off) = ka := by
      have he : off + ka.length - off = ka.length := by omega
      rw [he, hd, List.take_left]
    have hkeyB : (data.drop (off + ka.length + va.length)).take
        (off + ka.length + va.length + kb2.length - (off + ka.length + va.length)) = kb2 := by
      have he : off + ka.length + va.length + kb2.length - (off + ka.length + va.length)
          = kb2.length := by omega
      rw [he, hdkb, List.take_left]
    have hviolA : violates prev ka = false := by
      cases prev with
      | none => rfl
      | some pb =>
        have hlt := hprev pb rfl a (by simp)
        rw [encB_eq hka] at hlt
        have := compareBytes_antisymm pb ka
        simp only [violates, decide_eq_false_iff_not, not_le]
        omega
    have hviolB : violates (some ka) kb2 = true := by
      simp only [violates, decide_eq_true_eq]
      rw [← encB_eq hka, ← encB_eq hkb2]
      exact hba
    simp only [List.nil_append, List.length_cons]
    rw [decodeMapEntriesAt_succ, hdka]
    dsimp only
    rw [hkeyA, hviolA]
    simp only [Bool.false_eq_true, if_false]
    rw [hdvadec]
    dsimp only
    rw [decodeMapEntriesAt_succ, hdkbdec]
    dsimp only
    rw [hkeyB, hviolB]
    simp only [if_true]
  | cons p pre' ih =>
    intro a b suf data off rest prev hok hd hchain hprev hba
    obtain ⟨hokp1, hokp2⟩ := hok p (by simp)
    obtain ⟨kp, hkp, _, hkpdec⟩ := hokp1
    obtain ⟨vp, hvp, _, hvpdec⟩ := hokp2
    simp only [List.cons_append, List.map_cons, List.flatten_cons,
      encB_eq hkp, encB_eq hvp, List.append_assoc] at hd
    obtain ⟨dkp, hdkpdec, _⟩ := hkpdec data off _ hd
    have hdvp : data.drop (off + kp.length) =
        vp ++ ((((pre' ++ a :: b :: suf).map fun q => encB q.1 ++ encB q.2).flatten) ++ rest) :=
      drop_append_of_drop hd
    obtain ⟨dvp, hdvpdec, _⟩ := hvpdec data (off + kp.length) _ hdvp
    have hdtail : data.drop (off + kp.length + vp.length) =
        (((pre' ++ a :: b :: suf).map fun q => encB q.1 ++ encB q.2).flatten) ++ rest :=
      drop_append_of_drop hdvp
    have hkeyP : (data.drop off).take (off + kp.length - off) = kp := by
      have he : off + kp.length - off = kp.length := by omega
      rw [he, hd, List.take_left]
    have hviolP : violates prev kp = false := by
      cases prev with
      | none => rfl
      | some pb =>
        have hlt := hprev pb rfl p (by simp)
        rw [encB_eq hkp] at hlt
        have := compareBytes_antisymm pb kp
        simp only [violates, decide_eq_false_iff_not, not_le]
        omega
    have hchain' : List.Chain' (fun x y => compareBytes (encB x.1) (encB y.1) < 0)
        (pre' ++ [a]) := by
      have := List.chain'_cons'.mp (by simpa using hchain)
      exact this.2
    have hprev' : ∀ pb, (some kp : Option (List Nat)) = some pb →
        ∀ k ∈ (pre' ++ [a]).head?, compareBytes pb (encB k.1) < 0 := by
      intro pb hpb k hk
      cases hpb
      have := List.chain'_cons'.mp (by simpa using hchain)
      have hrel := this.1 k hk
      rw [← encB_eq hkp]
      exact hrel
    have hrec := ih a b suf data (off + kp.length + vp.length) rest (some kp)
      (fun q hq => hok q (by simp [hq]))
      hdtail hchain' hprev' hba
    simp only [List.cons_append, List.length_cons]
    rw [decodeMapEntriesAt_succ, hdkpdec]
    dsimp only
    rw [hkeyP, hviolP]
    simp only [Bool.false_eq_true, if_false]
    rw [hdvpdec]
    dsimp only
    rw [hrec]

/-- Sorted byte-pair entries with pairwise distinct key bytes are strictly
increasing. -/
theorem mergeSort_bytePairs_strict {entries : List (List Nat × List Nat)}
    (hdis : (entries.map Prod.fst).Pairwise (· ≠ ·)) :
    (entries.mergeSort entryLE).Pairwise (fun a b => compareBytes a.1 b.1 < 0) := by
  have hsorted := List.sorted_mergeSort entryLE_trans entryLE_total entries
  have hperm := List.mergeSort_perm entries entryLE
  have hneM : entries.Pairwise (fun a b => a.1 ≠ b.1) := List.pairwise_map.mp hdis
  have hsymm : ∀ {x y : List Nat × List Nat},
      (fun a b => a.1 ≠ b.1) x y → (fun a b => a.1 ≠ b.1) y x :=
    fun h => Ne.symm h
  have hne : (entries.mergeSort entryLE).Pairwise (fun a b => a.1 ≠ b.1) :=
    (List.Perm.pairwise_iff hsymm hperm).mpr hneM
  refine (hsorted.and hne).imp ?_
  intro a b hab
  obtain ⟨hle, hne⟩ := hab
  simp only [entryLE, decide_eq_true_eq] at hle
  rcases lt_or_eq_of_le hle with h | h
  · exact h
  · exact absurd (compareBytes_eq_zero_iff.mp h) hne

/-- Two strictly key-sorted permutations of the same entries are equal. -/
theorem strictSorted_perm_eq {l₁ l₂ : List (List Nat × List Nat)}
    (hperm : List.Perm l₁ l₂)
    (h₁ : l₁.Pairwise (fun a b => compareBytes a.1 b.1 < 0))
    (h₂ : l₂.Pairwise (fun a b => compareBytes a.1 b.1 < 0)) : l₁ = l₂ := by
  haveI : IsAntisymm (List Nat × List Nat) (fun a b => compareBytes a.1 b.1 < 0) := by
    refine ⟨fun a b hab hba => ?_⟩
    have := compareBytes_antisymm a.1 b.1
    omega
  exact List.eq_of_perm_of_sorted hperm h₁ h₂

/-- Encoding a `Map` is invariant under permutation of its entries, provided
the keys have pairwise distinct canonical bytes. -/
theorem encodeTerm_vmap_perm_eq {e₁ e₂ : List (SVal × SVal)}
    (hperm : List.Perm e₁ e₂)
    (hdis : (e₁.map fun p => encB p.1).Pairwise (· ≠ ·))
    (hok : ∀ p ∈ e₁, (∃ b1, encodeTerm p.1 = .ok b1) ∧ ∃ b2, encodeTerm p.2 = .ok b2) :
    encodeTerm (.vmap e₁) = encodeTerm (.vmap e₂) := by
  have hok₂ : ∀ p ∈ e₂, (∃ b1, encodeTerm p.1 = .ok b1) ∧ ∃ b2, encodeTerm p.2 = .ok b2 :=
    fun p hp => hok p (hperm.mem_iff.mpr hp)
  have hents₁ := encodeMapEntriesE_eq hok
  have hents₂ := encodeMapEntriesE_eq hok₂
  have hdis₂ : (e₂.map fun p => encB p.1).Pairwise (· ≠ ·) :=
    (List.Perm.pairwise_iff (fun h => Ne.symm h) (hperm.map _)).mp hdis
  have hfst₁ : ((e₁.map fun p => (encB p.1, encB p.2)).map Prod.fst).Pairwise (· ≠ ·) := by
    rw [List.map_map]
    exact hdis
  have hfst₂ : ((e₂.map fun p => (encB p.1, encB p.2)).map Prod.fst).Pairwise (· ≠ ·) := by
    rw [List.map_map]
    exact hdis₂
  have hs₁ := mergeSort_bytePairs_strict hfst₁
  have hs₂ := mergeSort_bytePairs_strict hfst₂
  have hsp : List.Perm ((e₁.map fun p => (encB p.1, encB p.2)).mergeSort entryLE)
      ((e₂.map fun p => (encB p.1, encB p.2)).mergeSort entryLE) :=
    (List.mergeSort_perm _ _).trans ((hperm.map _).trans (List.mergeSort_perm _ _).symm)
  have heqsorted := strictSorted_perm_eq hsp hs₁ hs₂
  rw [encodeTerm, encodeTerm, hents₁, hents₂]
  dsimp only
  rw [emitMap, emitMap]
  simp only [List.length_map]
  rw [hperm.length_eq, heqsorted]

/-- The entry list of a keyed collection (object or `Map`), with object keys
read as string terms. -/
def keyedEntries : SVal → Option (List (SVal × SVal))
  | .vobj es => some (es.map fun p => (.vstr p.1, p.2))
  | .vmap es => some es
  | _ => none

theorem encodeTerm_keyed {c : SVal} {e : List (SVal × SVal)}
    (h : keyedEntries c = some e) : encodeTerm c = encodeTerm (.vmap e) := by
  cases c with
  | vobj es =>
    rw [keyedEntries] at h
    injection h with h
    rw [← h]
    exact encodeTerm_vobj_eq_vmap es
  | vmap es =>
    rw [keyedEntries] at h
    injection h with h
    rw [h]
  | vnull => cases h
  | vbool b => cases h
  | vnum q => cases h
  | vbigint n => cases h
  | vstr s => cases h
  | vbytes b => cases h
  | vlist xs => cases h
  | vundef => cases h

/-! ## Claim theorems -/

/-- C3 (code evaluated at the failing input): `decode` silently accepts the
redundant integer encoding `[0x03, 0x02, 0x00, 0x05]` (varint magnitude with
a leading zero byte) and normalizes it to the same value `5` as the minimal
encoding `[0x03, 0x01, 0x05]`, instead of failing with a hard error as the
canonical-form contract requires. -/
theorem c3_redundant_varint_accepted :
    decode [0x03, 0x02, 0x00, 0x05] = .ok (.dint 5) ∧
    decode [0x03, 0x01, 0x05] = .ok (.dint 5) := by
  constructor <;>
    simp +decide [decode, decodeTermAt, decodeTerm, decodeVarint, readMag,
      TYPE_NULL, TYPE_TRUE, TYPE_FALSE, TYPE_INT]

/-- C4 (counterexample): a BYTES payload whose declared length exceeds the
remaining bytes does not fail with `out_of_bounds`; the reader clamps the
slice, advances the cursor past the end, and the failure surfaces as
`trailing_bytes`. -/
theorem c4_oob_counterexample :
    decode [0x05, 0x01, 0x05, 0xAA] = .error .trailingBytes ∧
    decode [0x05, 0x01, 0x05, 0xAA] ≠ .error .outOfBounds := by
  have h : decode [0x05, 0x01, 0x05, 0xAA] = .error .trailingBytes := by
    simp +decide [decode, decodeTermAt, decodeTerm, decodeVarint, decodeVarintGteZero,
      readMag, TYPE_NULL, TYPE_TRUE, TYPE_FALSE, TYPE_INT, TYPE_BYTES]
  refine ⟨h, ?_⟩
  rw [h]
  intro hcontra
  cases hcontra

/-- C4 (amended): reading a term at a cursor at or past the end of the buffer
fails with `out_of_bounds`, so a missing element of a declared list/map count
fails with `out_of_bounds`; but a truncated varint header is read as the
integer `0` and surfaces later as `trailing_bytes`, a truncated varint
magnitude fails with the `TypeError` of `BigInt(undefined)`, and an
over-declared BYTES length is not validated against the buffer end — the
slice is clamped, the cursor overruns, and the failure surfaces as
`trailing_bytes` (or a later `out_of_bounds`). -/
theorem c4_oob_amended :
    (∀ (data : List Nat) (off : Nat), data.length ≤ off →
      decodeTermAt data off = .error .outOfBounds) ∧
    decode [0x06, 0x01, 0x01] = .error .outOfBounds ∧
    decode [0x03] = .error .trailingBytes ∧
    decode [0x03, 0x02, 0x01] = .error .typeErrorBigInt ∧
    decode [0x05, 0x01, 0x05, 0xAA] = .error .trailingBytes := by
  refine ⟨fun data off h => decodeTermAt_oob h, ?_, ?_, ?_, ?_⟩ <;>
    simp +decide [decode, decodeTermAt, decodeTerm, decodeList, decodeVarint,
      decodeVarintGteZero, readMag,
      TYPE_NULL, TYPE_TRUE, TYPE_FALSE, TYPE_INT, TYPE_BYTES, TYPE_LIST]

/-- C4 witness: the bounds check at a concrete out-of-range cursor. -/
theorem c4_oob_witness : decodeTermAt [] 0 = .error .outOfBounds :=
  c4_oob_amended.1 [] 0 (by decide)

/-- C7 (counterexample): `encode` of the non-integral number `1/2` fails with
the `RangeError` of `BigInt(1/2)`, not with `unsupported_type`. -/
theorem c7_unsupported_counterexample :
    encode (.vnum (1 / 2 : ℚ)) = .error .rangeErrorBigInt ∧
    encode (.vnum (1 / 2 : ℚ)) ≠ .error .unsupportedType := by
  have hden : (1 / 2 : ℚ).den ≠ 1 := by norm_num
  have h : encode (.vnum (1 / 2 : ℚ)) = .error .rangeErrorBigInt := by
    have ht : encodeTerm (.vnum (1 / 2 : ℚ)) = .error .rangeErrorBigInt := by
      simp only [encodeTerm, jsBigInt]
      rw [if_neg hden]
    rw [encode, ht]
  refine ⟨h, ?_⟩
  rw [h]
  intro hcontra
  cases hcontra

/-- C7 (amended): `encode` of `undefined` fails with `unsupported_type`; a
non-integral number reaches the integer branch and fails with the
`RangeError` of the `BigInt` conversion instead; in both cases `encode`
throws and produces no output bytes. -/
theorem c7_unsupported_amended :
    encode .vundef = .error .unsupportedType ∧
    ∀ q : ℚ, q.den ≠ 1 → encode (.vnum q) = .error .rangeErrorBigInt := by
  constructor
  · have ht : encodeTerm SVal.vundef = .error .unsupportedType := by
      simp only [encodeTerm]
    rw [encode, ht]
  · intro q hq
    have ht : encodeTerm (.vnum q) = .error .rangeErrorBigInt := by
      simp only [encodeTerm, jsBigInt]
      rw [if_neg hq]
    rw [encode, ht]

/-- C7 witness at the concrete non-integral number `1/2`. -/
theorem c7_unsupported_witness :
    encode .vundef = .error .unsupportedType ∧
    encode (.vnum (1 / 2 : ℚ)) = .error .rangeErrorBigInt :=
  ⟨c7_unsupported_amended.1, c7_unsupported_amended.2 _ (by norm_num)⟩

/-- C8 (counterexample): `encode` of the integer `0` produces the two bytes
`[0x03, 0x00]` (tag plus varint), not "exactly one byte" as the claim
states. -/
theorem c8_zero_counterexample :
    encode (.vnum 0) = .ok [0x03, 0x00] ∧ ([0x03, 0x00] : List Nat).length ≠ 1 := by
  constructor
  · have ht : encodeTerm (.vnum 0) = .ok [0x03, 0x00] := by
      simp only [encodeTerm, jsBigInt]
      norm_num
      rw [encodeVarint_zero]
      rfl
    rw [encode, ht]
    rfl
  · decide

/-- C8 (amended): `encode` of the integer `0` (as number or bigint) is
exactly the two bytes `INTEGER` tag plus the single varint byte `0x00`;
decoding varint header `0x00` yields `0`, and header `0x80` fails with
`noncanonical_zero`. -/
theorem c8_zero_canonicality_amended :
    encode (.vnum 0) = .ok [TYPE_INT, 0x00] ∧
    encode (.vbigint 0) = .ok [TYPE_INT, 0x00] ∧
    decodeVarint [0x00] 0 = .ok (0, 1) ∧
    decodeVarint [0x80] 0 = .error .noncanonicalZero ∧
    decode [0x03, 0x00] = .ok (.dint 0) ∧
    decode [0x03, 0x80] = .error .noncanonicalZero := by
  refine ⟨?_, ?_, ?_, ?_, ?_, ?_⟩
  · have ht : encodeTerm (.vnum 0) = .ok [TYPE_INT, 0x00] := by
      simp only [encodeTerm, jsBigInt]
      norm_num
      rw [encodeVarint_zero]
    rw [encode, ht]
    rfl
  · have ht : encodeTerm (.vbigint 0) = .ok [TYPE_INT, 0x00] := by
      simp only [encodeTerm]
      rw [encodeVarint_zero]
    rw [encode, ht]
    rfl
  · simp [decodeVarint]
  · simp [decodeVarint]
  · simp +decide [decode, decodeTermAt, decodeTerm, decodeVarint, readMag,
      TYPE_NULL, TYPE_TRUE, TYPE_FALSE, TYPE_INT]
  · simp +decide [decode, decodeTermAt, decodeTerm, decodeVarint, readMag,
      TYPE_NULL, TYPE_TRUE, TYPE_FALSE, TYPE_INT]

/-- C10: the `varint_leading_zero` branch of `encodeVarint` is unreachable:
for every nonzero magnitude the loop's big-endian bytes have a nonzero most
significant byte, so `encodeVarint` never throws `varint_leading_zero`. -/
theorem c10_leading_zero_unreachable :
    (∀ m : Nat, m ≠ 0 → (toMagBytesLE m).reverse.headD 0 ≠ 0) ∧
    (∀ n : Int, encodeVarint n ≠ .error .varintLeadingZero) := by
  constructor
  · intro m hm
    rw [toMagBytesLE_eq_digits]
    have hnil : Nat.digits 256 m ≠ [] := Nat.digits_ne_nil_iff_ne_zero.mpr hm
    have hrev : (Nat.digits 256 m).reverse.head? =
        some ((Nat.digits 256 m).getLast hnil) := by
      rw [List.head?_reverse, List.getLast?_eq_getLast _ hnil]
    rw [List.headD_eq_head?_getD, hrev]
    exact Nat.getLast_digit_ne_zero 256 hm
  · exact encodeVarint_ne_leading_zero

/-- C10 witness at the concrete magnitude `5`. -/
theorem c10_leading_zero_witness :
    (toMagBytesLE 5).reverse.headD 0 ≠ 0 ∧
    encodeVarint 5 ≠ .error .varintLeadingZero :=
  ⟨c10_leading_zero_unreachable.1 5 (by decide), c10_leading_zero_unreachable.2 5⟩

/-- C1: round-trip law — for every value of the encodable union (null,
booleans, integers of magnitude at most `2^53 - 1`, strings, byte sequences,
lists, and keyed collections with pairwise distinct canonical key bytes),
`decode (encode v)` succeeds and yields the decoded-value projection of `v`. -/
theorem c1_round_trip (v : SVal) (hwf : Wf v) :
    ∃ bs d, encode v = .ok bs ∧ decode bs = .ok d ∧ Projects v d :=
  encode_decode_wf hwf

/-- C1 witness at the concrete value `[5n, null]`. -/
theorem c1_round_trip_witness :
    ∃ bs d, encode (.vlist [.vbigint 5, .vnull]) = .ok bs ∧
      decode bs = .ok d ∧ Projects (.vlist [.vbigint 5, .vnull]) d :=
  c1_round_trip _ ⟨by norm_num,
    ⟨by show (5 : Int).natAbs ≤ 2 ^ 53 - 1; norm_num, trivial, trivial⟩⟩

/-- C6: trailing-byte rejection — appending any non-empty byte sequence to
the encoding of any well-formed value makes `decode` fail with
`trailing_bytes`. -/
theorem c6_trailing_bytes (v : SVal) (bs extra : List Nat) (hwf : Wf v)
    (henc : encode v = .ok bs) (hextra : extra ≠ []) :
    decode (bs ++ extra) = .error .trailingBytes := by
  obtain ⟨bs₀, henc₀, hblt, hdec⟩ := wf_encOK v hwf
  have hmod : bs₀.map (· % 256) = bs₀ := map_mod256_id hblt
  have henc' : encode v = .ok bs₀ := by
    rw [encode, henc₀]
    show Except.ok (bs₀.map (· % 256)) = _
    rw [hmod]
  rw [henc'] at henc
  injection henc with hbs
  subst hbs
  have hdata : (bs₀ ++ extra).map (· % 256) = bs₀ ++ extra.map (· % 256) := by
    rw [List.map_append, hmod]
  rw [decode, hdata]
  obtain ⟨d, hdt, _⟩ := hdec (bs₀ ++ extra.map (· % 256)) 0 (extra.map (· % 256)) (by simp)
  rw [hdt]
  show (if 0 + bs₀.length ≠ (bs₀ ++ extra.map (· % 256)).length then
      (Except.error Err.trailingBytes : Except Err DVal) else .ok d) = .error .trailingBytes
  have hlen : 0 < extra.length := List.length_pos.mpr hextra
  rw [if_pos (by simp only [List.length_append, List.length_map]; omega)]

/-- C6 witness: the encoding of `null` with one garbage byte appended. -/
theorem c6_trailing_bytes_witness :
    decode ([0x00] ++ [0x01]) = .error .trailingBytes :=
  c6_trailing_bytes .vnull [0x00] [0x01] trivial
    (by simp +decide [encode, encodeTerm, TYPE_NULL]) (by decide)

/-- C9: integer bounds — a magnitude needing more than 16 bytes fails at
encode time with `bad_varint_length`; decoding a varint whose magnitude
exceeds `2^53 - 1` fails with `length_overflow`; every integer of magnitude
at most `2^53 - 1` round-trips through `encodeVarint`/`decodeVarint` and
through the public `encode`/`decode`. -/
theorem c9_integer_bounds :
    (∀ n : Int, 256 ^ 16 ≤ n.natAbs → encodeVarint n = .error .badVarintLength) ∧
    (∀ (data : List Nat) (off header : Nat) (chunk rest : List Nat),
      data.get? off = some header → header ≠ 0 → header ≠ 128 →
      data.drop (off + 1) = chunk ++ rest → chunk.length = header % 128 →
      2 ^ 53 - 1 < beVal chunk →
      decodeVarint data off = .error .lengthOverflow) ∧
    (∀ n : Int, n.natAbs ≤ 2 ^ 53 - 1 →
      ∃ bs, encodeVarint n = .ok bs ∧ decodeVarint bs 0 = .ok (n, bs.length)) ∧
    (∀ n : Int, n.natAbs ≤ 2 ^ 53 - 1 →
      ∃ bs, encode (.vbigint n) = .ok bs ∧ decode bs = .ok (.dint n)) := by
  refine ⟨fun n h => encodeVarint_too_long h, ?_, ?_, ?_⟩
  · intro data off header chunk rest hg h0 h80 hdrop hclen hover
    rw [decodeVarint, hg]
    dsimp only
    rw [if_neg h0, if_neg h80]
    have hrm := readMag_spec chunk (off + 1) 0 rest hdrop
    rw [hclen] at hrm
    rw [hrm]
    dsimp only
    have hover' : 2 ^ 53 - 1 < List.foldl (fun a b => a * 256 + b) 0 chunk := hover
    rw [if_pos hover']
  · intro n hn
    by_cases h0 : n = 0
    · subst h0
      exact ⟨[0], encodeVarint_zero, rfl⟩
    · have hlt : n.natAbs < 256 ^ 16 := by
        have hb : (2 : Nat) ^ 53 - 1 < 256 ^ 16 := by norm_num
        omega
      refine ⟨_, encodeVarint_ok h0 hlt, ?_⟩
      have hd := decodeVarint_encode hn (encodeVarint_ok h0 hlt)
        (show (((if n < 0 then 128 else 0) + (Nat.digits 256 n.natAbs).length)
          :: (Nat.digits 256 n.natAbs).reverse).drop 0 =
          (((if n < 0 then 128 else 0) + (Nat.digits 256 n.natAbs).length)
          :: (Nat.digits 256 n.natAbs).reverse) ++ [] from by simp)
      rw [Nat.zero_add] at hd
      exact hd
  · intro n hn
    have hwf : Wf (.vbigint n) := hn
    obtain ⟨bs, d, he, hd, hp⟩ := encode_decode_wf hwf
    cases hp
    exact ⟨bs, he, hd⟩

/-- C9 witness: the encode-time cap at `2^128`, a decode overflow at a
9-byte buffer holding a `2^64 - 1` magnitude, and round trips at `0`,
`2^53 - 1` and `-(2^53 - 1)`. -/
theorem c9_integer_bounds_witness :
    encodeVarint (2 ^ 128) = .error .badVarintLength ∧
    decodeVarint [0x08, 255, 255, 255, 255, 255, 255, 255, 255] 0 =
      .error .lengthOverflow ∧
    (∃ bs, encodeVarint 0 = .ok bs ∧ decodeVarint bs 0 = .ok (0, bs.length)) ∧
    (∃ bs, encodeVarint ((2 : Int) ^ 53 - 1) = .ok bs ∧
      decodeVarint bs 0 = .ok ((2 : Int) ^ 53 - 1, bs.length)) ∧
    (∃ bs, encodeVarint (-((2 : Int) ^ 53 - 1)) = .ok bs ∧
      decodeVarint bs 0 = .ok (-((2 : Int) ^ 53 - 1), bs.length)) ∧
    (∃ bs, encode (.vbigint ((2 : Int) ^ 53 - 1)) = .ok bs ∧
      decode bs = .ok (.dint ((2 : Int) ^ 53 - 1))) :=
  ⟨c9_integer_bounds.1 _ (by norm_num),
   c9_integer_bounds.2.1 _ 0 8 [255, 255, 255, 255, 255, 255, 255, 255] []
     (by decide) (by decide) (by decide) (by decide) (by decide) (by decide),
   c9_integer_bounds.2.2.1 0 (by norm_num),
   c9_integer_bounds.2.2.1 _ (by norm_num),
   c9_integer_bounds.2.2.1 _ (by norm_num),
   c9_integer_bounds.2.2.2 _ (by norm_num)⟩

/-- C2: key-order independence — two keyed collections (objects or `Map`s)
holding the same key/value pairs in any orders, with pairwise distinct
encoded key bytes, encode to byte-for-byte identical output; the entries are
written sorted strictly increasingly by the byte-wise comparison of each
key's encoded term bytes, a comparison that orders by the first differing
byte's unsigned value and puts a strict prefix before the longer sequence. -/
theorem c2_key_order_independence
    (c₁ c₂ : SVal) (e₁ e₂ : List (SVal × SVal))
    (h₁ : keyedEntries c₁ = some e₁) (h₂ : keyedEntries c₂ = some e₂)
    (hperm : List.Perm e₁ e₂)
    (hdis : (e₁.map fun p => encB p.1).Pairwise (· ≠ ·))
    (hok : ∀ p ∈ e₁, (∃ b1, encodeTerm p.1 = .ok b1) ∧ ∃ b2, encodeTerm p.2 = .ok b2)
    (hlen : e₁.length ≤ 2 ^ 53 - 1) :
    encode c₁ = encode c₂ ∧
    (∃ cnt sortedEntries,
      encodeTerm c₁ =
        .ok (TYPE_MAP :: cnt ++ (sortedEntries.map fun e => e.1 ++ e.2).flatten) ∧
      sortedEntries.Pairwise (fun x y => compareBytes x.1 y.1 < 0) ∧
      List.Perm sortedEntries (e₁.map fun p => (encB p.1, encB p.2))) ∧
    (∀ (pre : List Nat) (x y : Nat) (s₁ s₂ : List Nat), x < y →
      compareBytes (pre ++ x :: s₁) (pre ++ y :: s₂) < 0) ∧
    (∀ pre s : List Nat, s ≠ [] → compareBytes pre (pre ++ s) < 0) := by
  have hterm : encodeTerm c₁ = encodeTerm c₂ := by
    rw [encodeTerm_keyed h₁, encodeTerm_keyed h₂]
    exact encodeTerm_vmap_perm_eq hperm hdis hok
  refine ⟨by rw [encode, encode, hterm], ?_,
    fun pre x y s₁ s₂ hxy => compareBytes_append_lt pre s₁ s₂ hxy,
    compareBytes_prefix_lt⟩
  obtain ⟨cv, hcv⟩ := encodeVarint_nat_ok hlen
  refine ⟨cv, (e₁.map fun p => (encB p.1, encB p.2)).mergeSort entryLE, ?_, ?_,
    List.mergeSort_perm _ _⟩
  · rw [encodeTerm_keyed h₁, encodeTerm, encodeMapEntriesE_eq hok]
    dsimp only
    rw [emitMap]
    simp only [List.length_map]
    rw [hcv]
  · refine mergeSort_bytePairs_strict ?_
    rw [List.map_map]
    exact hdis

/-- C2 witness: two concrete two-entry objects with swapped insertion order
encode identically. -/
theorem c2_key_order_independence_witness :
    encode (.vobj [([97], .vbigint 1), ([98], .vbigint 2)]) =
      encode (.vobj [([98], .vbigint 2), ([97], .vbigint 1)]) :=
  (c2_key_order_independence
    (.vobj [([97], .vbigint 1), ([98], .vbigint 2)])
    (.vobj [([98], .vbigint 2), ([97], .vbigint 1)])
    [(.vstr [97], .vbigint 1), (.vstr [98], .vbigint 2)]
    [(.vstr [98], .vbigint 2), (.vstr [97], .vbigint 1)]
    rfl rfl (List.Perm.swap _ _ _)
    (by simp +decide [encB, encodeTerm, encodeVarint, toMagBytesLE, TYPE_BYTES,
      List.pairwise_cons])
    (by
      intro p hp
      fin_cases hp
      · exact ⟨⟨[5, 1, 1, 97], by simp +decide [encodeTerm, encodeVarint, toMagBytesLE,
          TYPE_BYTES]⟩, ⟨[3, 1, 1], by simp +decide [encodeTerm, encodeVarint,
          toMagBytesLE, TYPE_INT]⟩⟩
      · exact ⟨⟨[5, 1, 1, 98], by simp +decide [encodeTerm, encodeVarint, toMagBytesLE,
          TYPE_BYTES]⟩, ⟨[3, 1, 2], by simp +decide [encodeTerm, encodeVarint,
          toMagBytesLE, TYPE_INT]⟩⟩)
    (by norm_num)).1

/-- The entry block of a hand-built map buffer starts right after the tag
and count bytes. -/
theorem handBuiltMap_drop (es : List (SVal × SVal)) :
    (handBuiltMap es).drop (1 + (encVarintD (es.length : Int)).length) =
      (es.map fun p => encB p.1 ++ encB p.2).flatten ++ [] := by
  rw [List.append_nil, handBuiltMap]
  rw [show 1 + (encVarintD ((es.length : Nat) : Int)).length =
    (encVarintD ((es.length : Nat) : Int)).length + 1 from by omega]
  rw [List.cons_append, List.drop_succ_cons, List.drop_left]

/-- C5: non-canonical map rejection — a hand-built keyed-collection buffer in
which some entry's raw encoded key bytes do not compare strictly greater than
the immediately preceding entry's key bytes fails `decode` with
`map_not_canonical`, even though every entry is individually well formed;
conversely a buffer whose key bytes are strictly increasing decodes. -/
theorem c5_map_canonicality :
    (∀ (pre : List (SVal × SVal)) (a b : SVal × SVal) (suf : List (SVal × SVal)),
      (∀ p ∈ pre ++ a :: b :: suf, Wf p.1 ∧ Wf p.2) →
      (pre ++ a :: b :: suf).length ≤ 2 ^ 53 - 1 →
      List.Chain' (fun x y => compareBytes (encB x.1) (encB y.1) < 0) (pre ++ [a]) →
      compareBytes (encB b.1) (encB a.1) ≤ 0 →
      decode (handBuiltMap (pre ++ a :: b :: suf)) = .error .mapNotCanonical) ∧
    (∀ es : List (SVal × SVal),
      (∀ p ∈ es, Wf p.1 ∧ Wf p.2) →
      es.length ≤ 2 ^ 53 - 1 →
      es.Pairwise (fun x y => compareBytes (encB x.1) (encB y.1) < 0) →
      ∃ d, decode (handBuiltMap es) = .ok d) := by
  constructor
  · intro pre a b suf hwf hlen hchain hba
    have hok : ∀ p ∈ pre ++ a :: b :: suf, EncOK p.1 ∧ EncOK p.2 :=
      fun p hp => ⟨wf_encOK _ (hwf p hp).1, wf_encOK _ (hwf p hp).2⟩
    rw [decode_handBuiltMap _ hok hlen]
    have hrej := decodeMapEntriesAt_reject pre a b suf
      (handBuiltMap (pre ++ a :: b :: suf))
      (1 + (encVarintD (((pre ++ a :: b :: suf).length : Nat) : Int)).length) [] none
      hok (handBuiltMap_drop (pre ++ a :: b :: suf)) hchain
      (fun pb hpb => by cases hpb) hba
    rw [hrej]
  · intro es hwf hlen hpw
    have hok : ∀ p ∈ es, EncOK p.1 ∧ EncOK p.2 :=
      fun p hp => ⟨wf_encOK _ (hwf p hp).1, wf_encOK _ (hwf p hp).2⟩
    rw [decode_handBuiltMap es hok hlen]
    obtain ⟨ds, hds, _, _⟩ := decodeMapEntriesAt_spec es (handBuiltMap es)
      (1 + (encVarintD ((es.length : Nat) : Int)).length) [] none
      hok (handBuiltMap_drop es) hpw (fun pb hpb => by cases hpb)
    refine ⟨.dmap ds, ?_⟩
    rw [hds]
    dsimp only
    have hlen2 : (handBuiltMap es).length =
        1 + (encVarintD ((es.length : Nat) : Int)).length +
          ((es.map fun p => encB p.1 ++ encB p.2).flatten).length := by
      simp only [handBuiltMap, List.cons_append, List.length_cons, List.length_append]
      omega
    rw [if_neg (by omega)]

/-- C5 witness: two concrete two-entry buffers — descending key bytes are
rejected with `map_not_canonical`, ascending key bytes decode. -/
theorem c5_map_canonicality_witness :
    decode (handBuiltMap [(.vbigint 2, .vnull), (.vbigint 1, .vnull)]) =
      .error .mapNotCanonical ∧
    ∃ d, decode (handBuiltMap [(.vbigint 1, .vnull), (.vbigint 2, .vnull)]) = .ok d :=
  ⟨c5_map_canonicality.1 [] (.vbigint 2, .vnull) (.vbigint 1, .vnull) []
      (by
        intro p hp
        fin_cases hp
        · exact ⟨by show (2 : Int).natAbs ≤ 2 ^ 53 - 1; norm_num, trivial⟩
        · exact ⟨by show (1 : Int).natAbs ≤ 2 ^ 53 - 1; norm_num, trivial⟩)
      (by norm_num) (by simp)
      (by simp +decide [encB, encodeTerm, encodeVarint, toMagBytesLE,
        compareBytes, TYPE_INT]),
   c5_map_canonicality.2 [(.vbigint 1, .vnull), (.vbigint 2, .vnull)]
      (by
        intro p hp
        fin_cases hp
        · exact ⟨by show (1 : Int).natAbs ≤ 2 ^ 53 - 1; norm_num, trivial⟩
        · exact ⟨by show (2 : Int).natAbs ≤ 2 ^ 53 - 1; norm_num, trivial⟩)
      (by norm_num)
      (by simp +decide [List.pairwise_cons, encB, encodeTerm, encodeVarint,
        toMagBytesLE, compareBytes, TYPE_INT])⟩

end VecPack
